import Mathlib

/-!
A verification development for the `simfinweb` module, a client of the SimFin
web API.  The Python source is embedded shallowly: Python strings are Lean
`String`s, Python ints are Lean `Int`s, Python dicts / dynamic objects become
association lists with `setattr` overwrite semantics, and calls that can raise
an uncaught exception are modelled with `Option` (with `none` standing for the
unchecked fault).  External collaborators (the HTTP transport and the date
parser) are treated as parameters, exactly as the specification scopes them.
Python's in-place `list.sort()` is modelled with `List.insertionSort`, which
produces the same (ascending, stable) result; string keys are compared with
the code-point lexicographic order `pyLe`, Python's string comparison.
-/

namespace Simfinweb

/-! ## Python primitives: decimal rendering, `int()`, `str.split`

`"{}".format(n)` on a Python `int` renders the number in decimal; `int(s)`
parses an optionally signed decimal string; `s.split("_")` splits on every
occurrence of the separator.  These builtins are modelled here on `List Char`.
-/

/-- Decimal digit characters. -/
def digitChar : Nat → Char
  | 0 => '0' | 1 => '1' | 2 => '2' | 3 => '3' | 4 => '4'
  | 5 => '5' | 6 => '6' | 7 => '7' | 8 => '8' | 9 => '9'
  | _ => '0'

/-- Numeric value of a digit character. -/
def digitVal (c : Char) : Nat := c.toNat - 48

/-- Little-endian digit list of a natural number (empty for 0), computed with
explicit fuel so that it reduces inside the kernel. -/
def natDigitsCore : Nat → Nat → List Char
  | 0, _ => []
  | _ + 1, 0 => []
  | fuel + 1, n + 1 => digitChar ((n + 1) % 10) :: natDigitsCore fuel ((n + 1) / 10)

/-- Little-endian digit list of a natural number (empty for 0). -/
def natDigitsAux (n : Nat) : List Char := natDigitsCore n n

/-- Decimal rendering of a natural number, as Python's `str`. -/
def renderNat (n : Nat) : List Char :=
  if n = 0 then ['0'] else (natDigitsAux n).reverse

/-- Decimal rendering of an integer, as Python's `str`. -/
def renderInt : Int → List Char
  | .ofNat n => renderNat n
  | .negSucc m => '-' :: renderNat (m + 1)

/-- Accumulating decimal value of a digit list. -/
def valList (l : List Char) : Nat :=
  l.foldl (fun a c => a * 10 + digitVal c) 0

/-- Python `int()` restricted to unsigned decimal strings. -/
def parseDigits (l : List Char) : Option Nat :=
  if l ≠ [] ∧ l.all Char.isDigit then some (valList l) else none

/-- Python `int()` on an optionally `-`-signed decimal string. -/
def pyInt (l : List Char) : Option Int :=
  if l.head? = some '-' then (parseDigits l.tail).map (fun m => -(m : Int))
  else (parseDigits l).map (fun m => (m : Int))

/-- Python `s.split(sep)` for a one-character separator. -/
def pySplit (sep : Char) : List Char → List (List Char)
  | [] => [[]]
  | c :: rest =>
    if c = sep then [] :: pySplit sep rest
    else
      match pySplit sep rest with
      | h :: t => (c :: h) :: t
      | [] => [[c]]

/-! ## KeyNormalizer: `get_key_name`

Source (`simfinweb.py`, lines 44-60): a `numbers.Number` key becomes
`"_{}".format(key)`; a `str` key goes through `re.sub(" ", "_", key)` and then
`re.sub("[-\:\.\&\(\)\,]", "_", ...)`; any other key is returned unchanged.
-/

/-- A Python dict key: a string, a number (modelled as an integer, the only
numeric keys occurring in the API responses), or a key of any other hashable
type, kept opaque. -/
inductive PyKey where
  | str (s : String)
  | num (n : Int)
  | other (t : Nat)
deriving DecidableEq, Repr

/-- Model of `re.sub(" ", "_", s)`. -/
def sub_space (s : String) : String :=
  ⟨s.data.map (fun c => if c = ' ' then '_' else c)⟩

/-- The character class of the second substitution. -/
def isPunct (c : Char) : Bool :=
  c = '-' || c = ':' || c = '.' || c = '&' || c = '(' || c = ')' || c = ','

/-- Model of `re.sub("[-\:\.\&\(\)\,]", "_", s)`. -/
def sub_punct (s : String) : String :=
  ⟨s.data.map (fun c => if isPunct c then '_' else c)⟩

/-- Model of `get_key_name` (source lines 44-60). -/
def get_key_name : PyKey → PyKey
  | .num n => .str ⟨'_' :: renderInt n⟩
  | .str s => .str (sub_punct (sub_space s))
  | .other t => .other t

/-- The specification's single-pass character replacement: each space and each
of `- : . & ( ) ,` becomes `_`. -/
def specNormChar (c : Char) : Char :=
  if c = ' ' || isPunct c then '_' else c

/-- The year key produced for a numeric fiscal year. -/
def yearKey (y : Int) : String := ⟨'_' :: renderInt y⟩

/-- Python `int(yr.split("_")[-1])`, returning `none` where Python raises. -/
def parseYearKey (k : String) : Option Int :=
  ((pySplit '_' k.data).getLast?).bind pyInt

/-! ## Python string comparison

Python compares strings lexicographically by code point; `list.sort()` on
strings uses this order.  The kernel-computable model below mirrors it.
-/

/-- Lexicographic (code-point) comparison of character lists. -/
def pyStrLeB : List Char → List Char → Bool
  | [], _ => true
  | _ :: _, [] => false
  | a :: as, b :: bs =>
    if a.toNat < b.toNat then true
    else if b.toNat < a.toNat then false
    else pyStrLeB as bs

/-- Python's `<=` on strings. -/
def pyLe (a b : String) : Prop := pyStrLeB a.data b.data = true

instance : DecidableRel pyLe := fun a b => by
  unfold pyLe
  infer_instance

instance : IsTotal String pyLe where
  total a b := by
    suffices h : ∀ x y : List Char, pyStrLeB x y = true ∨ pyStrLeB y x = true by
      exact h a.data b.data
    intro x
    induction x with
    | nil => intro y; exact Or.inl rfl
    | cons c cs ih =>
      intro y
      rcases y with _ | ⟨d, ds⟩
      · exact Or.inr rfl
      · rw [pyStrLeB, pyStrLeB]
        rcases Nat.lt_trichotomy c.toNat d.toNat with h | h | h
        · exact Or.inl (by rw [if_pos h])
        · have h1 : ¬ c.toNat < d.toNat := by omega
          have h2 : ¬ d.toNat < c.toNat := by omega
          simp only [if_neg h1, if_neg h2]
          exact ih ds
        · exact Or.inr (by rw [if_pos h])

instance : IsTrans String pyLe where
  trans a b c hab hbc := by
    suffices h : ∀ x y z : List Char, pyStrLeB x y = true → pyStrLeB y z = true →
        pyStrLeB x z = true by
      exact h a.data b.data c.data hab hbc
    intro x
    induction x with
    | nil => intro y z _ _; rfl
    | cons cx cxs ih =>
      intro y z h1 h2
      rcases y with _ | ⟨cy, cys⟩
      · simp [pyStrLeB] at h1
      · rcases z with _ | ⟨cz, czs⟩
        · simp [pyStrLeB] at h2
        · rw [pyStrLeB] at h1 h2 ⊢
          have hxy : cx.toNat ≤ cy.toNat := by
            by_contra hc
            rw [if_neg (by omega), if_pos (by omega)] at h1
            exact Bool.noConfusion h1
          have hyz : cy.toNat ≤ cz.toNat := by
            by_contra hc
            rw [if_neg (by omega), if_pos (by omega)] at h2
            exact Bool.noConfusion h2
          rcases Nat.lt_trichotomy cx.toNat cz.toNat with h | h | h
          · rw [if_pos h]
          · have hc1 : ¬ cx.toNat < cz.toNat := by omega
            have hc2 : ¬ cz.toNat < cx.toNat := by omega
            simp only [if_neg hc1, if_neg hc2]
            have hcxy : cx.toNat = cy.toNat := by omega
            have h1' : pyStrLeB cxs cys = true := by
              rw [if_neg (by omega), if_neg (by omega)] at h1
              exact h1
            have h2' : pyStrLeB cys czs = true := by
              rw [if_neg (by omega), if_neg (by omega)] at h2
              exact h2
            exact ih cys czs h1' h2'
          · exact absurd h (by omega)

/-! ## Association-list primitives

Python objects store attributes in an insertion-ordered dict; `setattr` on an
existing attribute overwrites in place, on a fresh one appends.
-/

/-- Python `setattr` / dict assignment on an attribute table: overwrite in
place when the attribute exists, append otherwise. -/
def setAttr {κ α : Type _} [DecidableEq κ] (fields : List (κ × α)) (k : κ) (v : α) :
    List (κ × α) :=
  if k ∈ fields.map Prod.fst then
    fields.map (fun p => if p.1 = k then (p.1, v) else p)
  else fields ++ [(k, v)]

/-- Python `getattr` / dict lookup on an attribute table. -/
def assocFind {κ α : Type _} [DecidableEq κ] (fields : List (κ × α)) (k : κ) : Option α :=
  (fields.find? (fun p => decide (p.1 = k))).map Prod.snd

/-- Python `set.add` on a set modelled as its insertion-ordered list of
distinct elements. -/
def setAdd (ys : List Int) (y : Int) : List Int :=
  if y ∈ ys then ys else ys ++ [y]

/-! ## StatementIndexer: `get_available_statements`

Source lines 140-161.  The flat response maps each statement-type code to a
list of statement records; each record carries a numeric `fyear`, a string
`period`, and further payload that the indexer stores but never inspects.
-/

/-- A flat statement-availability record (`i` in the source loop). -/
structure StmtRecord where
  fyear : Int
  period : String
  payload : Nat
deriving DecidableEq, Repr

/-- The per-year object: `keys` is the appended period directory, `fields`
the attribute table filled by `setattr(..., i.period, i)`. -/
structure PeriodIndex where
  keys : List String
  fields : List (String × StmtRecord)
deriving DecidableEq, Repr

/-- The per-statement-type object (`new_structure` in the source). -/
structure YearIndex where
  keys : List String
  fields : List (String × PeriodIndex)
deriving DecidableEq, Repr

/-- The in-place mutation of a per-year object (source lines 151-152):
`setattr` the record under its raw period, then append the period to the
year's directory. -/
def periodInsert (i : StmtRecord) (pi : PeriodIndex) : PeriodIndex :=
  ⟨pi.keys ++ [i.period], setAttr pi.fields i.period i⟩

/-- One iteration of the inner loop (source lines 145-152): normalise
`i.fyear`, create and register an empty per-year object for an unseen year
(also adding the year to the global set), then mutate the per-year object
for the record's year in place. -/
def insertInstance (st : YearIndex × List Int) (i : StmtRecord) : YearIndex × List Int :=
  let key := yearKey i.fyear
  let st1 : YearIndex × List Int :=
    if key ∈ st.1.keys then st
    else (⟨st.1.keys ++ [key], st.1.fields ++ [(key, ⟨[], []⟩)]⟩, setAdd st.2 i.fyear)
  (⟨st1.1.keys,
    st1.1.fields.map (fun p => if p.1 = key then (p.1, periodInsert i p.2) else p)⟩,
   st1.2)

/-- A value stored on the top-level response object: the original flat list,
the reorganised year index, or the final `year_range`. -/
inductive TopVal where
  | flat (l : List StmtRecord)
  | indexed (yi : YearIndex)
  | range (ys : List Int)
deriving DecidableEq, Repr

/-- The top-level response object: its `keys` directory and attribute table. -/
structure AvailObj where
  keys : List String
  fields : List (String × TopVal)
deriving DecidableEq, Repr

/-- The inner loop of source lines 145-152: fold every record of a
statement-type's flat list into a fresh empty year index, threading the
global year set. -/
def buildYearIndex (instances : List StmtRecord) (ys : List Int) :
    YearIndex × List Int :=
  instances.foldl insertInstance (⟨[], []⟩, ys)

/-- One iteration of the outer loop (source lines 142-154): build the year
index from the statement-type's flat list, sort its year directory, and
replace the statement-type attribute with the new structure. -/
def availStep (st : AvailObj × List Int) (p : String × List StmtRecord) :
    AvailObj × List Int :=
  let r := buildYearIndex p.2 st.2
  let sorted : YearIndex := ⟨List.insertionSort pyLe r.1.keys, r.1.fields⟩
  ({ st.1 with fields := setAttr st.1.fields p.1 (TopVal.indexed sorted) }, r.2)

/-- The reorganised year index a statement-type's flat list ends up with
(the year-set argument does not influence this component). -/
def statement_year_index (instances : List StmtRecord) : YearIndex :=
  ⟨List.insertionSort pyLe (buildYearIndex instances []).1.keys,
   (buildYearIndex instances []).1.fields⟩

/-- Model of `get_available_statements` (source lines 140-161) applied to the
parsed flat response.  `none` models the uncaught `IndexError` raised by
`years_sorted[0]` when no fiscal year was observed. -/
def get_available_statements (resp : List (String × List StmtRecord)) : Option AvailObj :=
  let init : AvailObj := ⟨resp.map Prod.fst, resp.map (fun p => (p.1, TopVal.flat p.2))⟩
  let r := resp.foldl availStep (init, [])
  let ys := List.insertionSort (· ≤ ·) r.2
  match ys.head?, ys.getLast? with
  | some a, some b =>
    some { r.1 with fields := setAttr r.1.fields "year_range" (TopVal.range [a, b]) }
  | _, _ => none

/-- The invariant the inner loop maintains on a statement-type's year index
after the records `done` have been folded in: the directory mirrors the
attribute table, year keys are unique, a year key is present exactly for the
processed fiscal years, and each period table has unique period keys holding
exactly the processed periods of its year. -/
structure StInv (done : List StmtRecord) (yi : YearIndex) : Prop where
  keys_eq : yi.keys = yi.fields.map Prod.fst
  keys_nodup : yi.keys.Nodup
  keys_mem : ∀ yk, yk ∈ yi.keys ↔ ∃ r ∈ done, yearKey r.fyear = yk
  per_year : ∀ yk pi, (yk, pi) ∈ yi.fields →
    (pi.fields.map Prod.fst).Nodup ∧
    ∀ q, q ∈ pi.fields.map Prod.fst ↔
      ∃ r ∈ done, yearKey r.fyear = yk ∧ r.period = q

/-- All `(statement-type, year-key, period)` lookup paths of a reorganised
top-level attribute table. -/
def pathsOf (fields : List (String × TopVal)) : List (String × String × String) :=
  fields.flatMap (fun q =>
    match q.2 with
    | .indexed yi =>
      yi.fields.flatMap (fun yp => yp.2.fields.map (fun pp => (q.1, yp.1, pp.1)))
    | _ => [])

/-! ## RecentYearSelector

Source lines 201-221: scan the balance-sheet year directory backwards (Python
negative indexing) for the first year whose period directory contains `"Q4"`,
then slice the directory to the last `years` entries ending there, and parse
the year keys back to integers.
-/

/-- Whether the year stored under directory key `k` has a `"Q4"` period in its
period directory (`"Q4" in getattr(available_statements.bs, k).keys`). -/
def q4At (yi : YearIndex) (k : String) : Bool :=
  match assocFind yi.fields k with
  | some pi => decide ("Q4" ∈ pi.keys)
  | none => false

/-- Model of the backward scan (source lines 201-209): the first directory
entry, counting from the most recent, whose year has a `"Q4"` period.  `none`
models the unbounded scan running off the start of the list. -/
def most_recent_complete_year (yi : YearIndex) : Option String :=
  yi.keys.reverse.find? (q4At yi)

/-- The slice of source lines 211-218: with the scan having stopped `j` steps
from the end (`end_index = -(j+1)`), `slice_end_index = len + end_index + 1 =
len - j`, and the start is clamped so that at most `years` entries remain. -/
def window_slice (ks : List String) (j years : Nat) : List String :=
  let slice_end := ks.length - j
  let slice_start := if slice_end > years then slice_end - years else 0
  (ks.take slice_end).drop slice_start

/-- Model of the slice construction (source lines 211-221): slice the year
directory around the backward-scan offset, then parse the kept keys back to
integers with `int(yr.split("_")[-1])`.  `none` models the uncaught faults
(scan running off the start, or an unparseable year key). -/
def year_window (yi : YearIndex) (years : Nat) : Option (List String × List Int) :=
  (yi.keys.reverse.findIdx? (q4At yi)).bind (fun j =>
    let valid_year_keys := window_slice yi.keys j years
    (valid_year_keys.mapM parseYearKey).map (fun vy => (valid_year_keys, vy)))

/-! ## StatementFetcher: the request loop of `get_standardised_financial_statement`

Source lines 238-250: one request per statement type and window year, with
`ptype` fixed to `"Q4"` for the balance sheet and `"FY"` otherwise.
-/

/-- The query parameters of one standardised-statement request. -/
structure FetchRequest where
  stype : String
  ptype : String
  fyear : Int
deriving DecidableEq, Repr

/-- The requests issued by the nested loop of source lines 238-250, in
order. -/
def standardised_requests (fin_statements_input : List String) (valid_years : List Int) :
    List FetchRequest :=
  fin_statements_input.flatMap (fun fs =>
    valid_years.map (fun yr => ⟨fs, if fs = "bs" then "Q4" else "FY", yr⟩))

/-! ## Example inputs used by the witness theorems. -/

/-- A year index with years 2018-2020 in which only 2018 and 2019 carry a
`"Q4"` period (the specification's RecentYearSelector scenario). -/
def exYearIndex : YearIndex :=
  ⟨["_2018", "_2019", "_2020"],
   [("_2018", ⟨["Q1", "Q4"], [("Q1", ⟨2018, "Q1", 0⟩), ("Q4", ⟨2018, "Q4", 1⟩)]⟩),
    ("_2019", ⟨["Q4"], [("Q4", ⟨2019, "Q4", 2⟩)]⟩),
    ("_2020", ⟨["Q1"], [("Q1", ⟨2020, "Q1", 3⟩)]⟩)]⟩

/-- A year index holding years 2015-2019, every year complete (the
specification's `window` scenario). -/
def exYearIndex5 : YearIndex :=
  ⟨["_2015", "_2016", "_2017", "_2018", "_2019"],
   [("_2015", ⟨["Q4"], [("Q4", ⟨2015, "Q4", 0⟩)]⟩),
    ("_2016", ⟨["Q4"], [("Q4", ⟨2016, "Q4", 1⟩)]⟩),
    ("_2017", ⟨["Q4"], [("Q4", ⟨2017, "Q4", 2⟩)]⟩),
    ("_2018", ⟨["Q4"], [("Q4", ⟨2018, "Q4", 3⟩)]⟩),
    ("_2019", ⟨["Q4"], [("Q4", ⟨2019, "Q4", 4⟩)]⟩)]⟩

/-- A small flat available-statements response. -/
def exResp : List (String × List StmtRecord) :=
  [("pl", [⟨2019, "FY", 0⟩, ⟨2018, "FY", 1⟩]),
   ("bs", [⟨2019, "Q4", 2⟩])]

/-- The reorganised object `get_available_statements` produces for `exResp`. -/
def exAvailObj : AvailObj :=
  ⟨["pl", "bs"],
   [("pl", .indexed ⟨["_2018", "_2019"],
      [("_2019", ⟨["FY"], [("FY", ⟨2019, "FY", 0⟩)]⟩),
       ("_2018", ⟨["FY"], [("FY", ⟨2018, "FY", 1⟩)]⟩)]⟩),
    ("bs", .indexed ⟨["_2019"], [("_2019", ⟨["Q4"], [("Q4", ⟨2019, "Q4", 2⟩)]⟩)]⟩),
    ("year_range", .range [2018, 2019])]⟩

/-! ## ResponseTree: `APIResponseObject.__init__`

Source lines 21-39.  A JSON value is null, a boolean, a number, a string, an
array, or an object: an insertion-ordered list of key/value entries whose
keys are arbitrary `PyKey`s.  The constructor turns an object into a node
carrying a field directory (`self.keys`) and an attribute table;
object-typed attribute values recurse, array values recurse only into their
object-typed members, and every other value is stored unchanged.
-/

/-- A JSON value, with object keys of arbitrary `PyKey` kind. -/
inductive JSON where
  | null
  | bool (b : Bool)
  | num (n : Int)
  | str (s : String)
  | arr (elems : List JSON)
  | obj (entries : List (PyKey × JSON))

/-- Whether a value is neither an object nor an array, so that the
constructor stores it unchanged (the final `else` of source lines 38-39). -/
def isScalar : JSON → Bool
  | .obj _ => false
  | .arr _ => false
  | _ => true

/-- The normalized keys of one object level, in insertion order. -/
def objKeys (es : List (PyKey × JSON)) : List PyKey :=
  es.map (fun e => get_key_name e.1)

/-- The tree the constructor builds: a stored raw value, a list of members,
or an object node with a field directory and an attribute table. -/
inductive Node where
  | raw (j : JSON)
  | arr (elems : List Node)
  | obj (keys : List PyKey) (fields : List (PyKey × Node))

/-- The `self.keys` list as grown by the constructor loop: one append per
entry (source line 25). -/
def keysFold (kvs : List (PyKey × Node)) : List PyKey :=
  kvs.foldl (fun acc kv => acc ++ [kv.1]) []

/-- The attribute table as grown by the constructor loop: one `setattr` per
entry (source lines 27, 36, 39). -/
def mkFields (kvs : List (PyKey × Node)) : List (PyKey × Node) :=
  kvs.foldl (fun acc kv => setAttr acc kv.1 kv.2) []

mutual

/-- The constructor loop over the entries of one object: normalize the key
and build the attribute value (source lines 23-39). -/
def buildKVs : List (PyKey × JSON) → List (PyKey × Node)
  | [] => []
  | (k, v) :: rest => (get_key_name k, buildAttr v) :: buildKVs rest

/-- One attribute value: a dict becomes a nested `APIResponseObject`, a list
is rebuilt member-wise, anything else is stored as is. -/
def buildAttr : JSON → Node
  | .obj es => Node.obj (keysFold (buildKVs es)) (mkFields (buildKVs es))
  | .arr ms => Node.arr (buildMembers ms)
  | j => Node.raw j

/-- The list branch (source lines 28-36): dict members become nested
objects, every other member passes through unchanged. -/
def buildMembers : List JSON → List Node
  | [] => []
  | .obj es :: rest =>
      Node.obj (keysFold (buildKVs es)) (mkFields (buildKVs es)) :: buildMembers rest
  | j :: rest => Node.raw j :: buildMembers rest

end

/-- Model of `APIResponseObject(api_response)` on a dict response. -/
def APIResponseObject (es : List (PyKey × JSON)) : Node :=
  Node.obj (keysFold (buildKVs es)) (mkFields (buildKVs es))

/-- The field directory of a node (empty off object nodes). -/
def keysOf : Node → List PyKey
  | .obj keys _ => keys
  | _ => []

/-- Python `getattr` on a node: attribute lookup in an object node. -/
def nodeGetattr (n : Node) (k : PyKey) : Option Node :=
  match n with
  | .obj _ fields => assocFind fields k
  | _ => none

/-- The object levels reachable from a top-level object input by the
constructor's recursion: the top level itself, an object-typed entry value
of a reachable level, and an object member of an array-typed entry value of
a reachable level. -/
inductive ReachObj : List (PyKey × JSON) → List (PyKey × JSON) → Prop where
  | refl (es : List (PyKey × JSON)) : ReachObj es es
  | intoObj {es es' : List (PyKey × JSON)} {k : PyKey} {es'' : List (PyKey × JSON)} :
      ReachObj es es' → (k, JSON.obj es'') ∈ es' → ReachObj es es''
  | intoArr {es es' : List (PyKey × JSON)} {k : PyKey} {ms : List JSON}
      {es'' : List (PyKey × JSON)} :
      ReachObj es es' → (k, JSON.arr ms) ∈ es' → JSON.obj es'' ∈ ms → ReachObj es es''

/-- Whether a character may start an identifier: an ASCII letter or an
underscore. -/
def isIdentStart (c : Char) : Bool :=
  ('a' ≤ c && c ≤ 'z') || ('A' ≤ c && c ≤ 'Z') || c = '_'

/-- Whether a character may continue an identifier: a starter or a digit. -/
def isIdentChar (c : Char) : Bool :=
  isIdentStart c || ('0' ≤ c && c ≤ '9')

/-- The specification's notion of a valid identifier, which its invariant
asserts of every reachable field name: a string key that is nonempty, starts
with a letter or underscore, and continues with letters, digits or
underscores.  This definition follows the spec's words, for comparison with
the names the source actually produces. -/
def specValidIdent : PyKey → Bool
  | .str s =>
      match s.data with
      | [] => false
      | c :: cs => isIdentStart c && cs.all isIdentChar
  | _ => false

/-- Whether no character of the string is a space or one of the punctuation
characters that `get_key_name` substitutes. -/
def noBanned (s : String) : Bool :=
  s.data.all (fun c => !(c = ' ' || isPunct c))

/-! ## AggregationReshaper: `get_aggregated_shares_outstanding`

Source lines 300-343.  Each response item carries figure, measure, period
and type strings, a value, and a fiscal year.  The fiscal year is modelled
as a number or null (`Option Int`); `int(fyear) if fyear else None` keeps a
truthy (nonzero, non-null) year and nulls a falsy one.  Dates are parsed by
the external date collaborator, modelled as an arbitrary function into an
arbitrary type `D` of parsed dates.  The accumulator nests attribute tables
figure → measure → type; a leaf is either a further period-keyed table of
record lists (the `measure == "period"` branch) or a plain record list.  A
`none` result models the `TypeError` Python would raise on reaching a key
whose stored value has the other branch's shape.
-/

/-- One record of the flat aggregated-shares response (`item` in the source
loop, lines 303-309). -/
structure AggRecord where
  figure : String
  measure : String
  period : String
  fyear : Option Int
  date : String
  value : Int
  type : String
deriving DecidableEq, Repr

/-- Python truthiness of the modelled `fyear`: null and 0 are falsy. -/
def fyearTruthy : Option Int → Bool
  | none => false
  | some n => n != 0

/-- The record appended to a leaf list (source lines 326-329 and 338-341). -/
structure ShareRec (D : Type) where
  value : Int
  date : D
  fyear : Option Int
deriving DecidableEq

/-- Builds the appended record from an input item: the value, the parsed
date, and `int(fyear) if fyear else None`. -/
def outRec {D : Type} (parseDate : String → D) (r : AggRecord) : ShareRec D :=
  ⟨r.value, parseDate r.date, if fyearTruthy r.fyear then r.fyear else none⟩

/-- A type-level leaf: a period-keyed table (the `period` branch) or a plain
record list (the other branch). -/
inductive PVal (D : Type) where
  | dictV (pm : List (String × List (ShareRec D)))
  | listV (l : List (ShareRec D))
deriving DecidableEq

/-- The `if k not in d: d[k] = default` idiom on one attribute table. -/
def ensure {α : Type _} (m : List (String × α)) (k : String) (d : α) :
    List (String × α) :=
  if k ∈ m.map Prod.fst then m else m ++ [(k, d)]

/-- One iteration of the reshaping loop (source lines 311-341): ensure the
figure and measure levels exist, then on the period branch ensure a
period-keyed table for the type and append under the record's period, and
otherwise ensure a plain list for the type and append to it.  In-place
mutation of a nested dict is modelled by writing the updated table back at
every level. -/
def insertAgg {D : Type} (parseDate : String → D)
    (items : List (String × List (String × List (String × PVal D)))) (r : AggRecord) :
    Option (List (String × List (String × List (String × PVal D)))) :=
  let measure := sub_punct (sub_space r.measure)
  let mm := (assocFind items r.figure).getD []
  let tm := (assocFind mm measure).getD []
  if measure = "period" then
    match (assocFind tm r.type).getD (PVal.dictV []) with
    | PVal.dictV pm =>
        let l := (assocFind pm r.period).getD []
        some (setAttr (ensure items r.figure []) r.figure
          (setAttr (ensure mm measure []) measure
            (setAttr (ensure tm r.type (PVal.dictV [])) r.type
              (PVal.dictV (setAttr (ensure pm r.period []) r.period
                (l ++ [outRec parseDate r]))))))
    | PVal.listV _ => none
  else
    match (assocFind tm r.type).getD (PVal.listV []) with
    | PVal.listV l =>
        some (setAttr (ensure items r.figure []) r.figure
          (setAttr (ensure mm measure []) measure
            (setAttr (ensure tm r.type (PVal.listV [])) r.type
              (PVal.listV (l ++ [outRec parseDate r])))))
    | PVal.dictV _ => none

/-- The reshaping loop of `get_aggregated_shares_outstanding` over the parsed
response items, starting from the empty `items` dict (source lines 301-343);
`none` models an uncaught fault. -/
def get_aggregated_shares_outstanding {D : Type} (parseDate : String → D)
    (resp : List AggRecord) :
    Option (List (String × List (String × List (String × PVal D)))) :=
  resp.foldlM (insertAgg parseDate) []

/-- The lookup path the spec prescribes for a record: figure, then
normalized measure, then type, then — on the period branch only — the
record's period. -/
def aggLookup {D : Type} (out : List (String × List (String × List (String × PVal D))))
    (r : AggRecord) : Option (List (ShareRec D)) :=
  let measure := sub_punct (sub_space r.measure)
  (assocFind out r.figure).bind (fun mm =>
    (assocFind mm measure).bind (fun tm =>
      (assocFind tm r.type).bind (fun pv =>
        match pv with
        | PVal.dictV pm => if measure = "period" then assocFind pm r.period else none
        | PVal.listV l => if measure = "period" then none else some l)))

/-- The shape invariant of the accumulator: under a measure key equal to the
literal `"period"` every type-level value is a period-keyed table, under any
other measure key it is a plain record list. -/
def AggBranchInv {D : Type}
    (out : List (String × List (String × List (String × PVal D)))) : Prop :=
  ∀ f mmv, (f, mmv) ∈ out → ∀ ms tmv, (ms, tmv) ∈ mmv → ∀ ty pv, (ty, pv) ∈ tmv →
    if ms = "period" then ∃ pm, pv = PVal.dictV pm else ∃ l, pv = PVal.listV l

/-- The specification's aggregation scenario record. -/
def exAggRecord : AggRecord :=
  ⟨"common", "period", "FY", some 2019, "2019-12-31", 100, "shares"⟩

/-! # Theorems -/

theorem natDigitsCore_congr :
    ∀ n fuel, n ≤ fuel → natDigitsCore fuel n = natDigitsAux n := by
  intro n
  induction n using Nat.strong_induction_on with
  | _ n ih =>
    intro fuel hle
    rcases n with _ | m
    · rcases fuel with _ | f <;> rfl
    · rcases fuel with _ | f
      · omega
      · show digitChar _ :: natDigitsCore f ((m + 1) / 10) = natDigitsAux (m + 1)
        have hdiv : (m + 1) / 10 < m + 1 := Nat.div_lt_self (Nat.succ_pos m) (by omega)
        rw [ih ((m + 1) / 10) hdiv f (by omega)]
        show _ = natDigitsCore (m + 1) (m + 1)
        rw [show natDigitsCore (m + 1) (m + 1) =
          digitChar ((m + 1) % 10) :: natDigitsCore m ((m + 1) / 10) from rfl,
          ih ((m + 1) / 10) hdiv m (by omega)]

theorem natDigitsAux_succ (m : Nat) :
    natDigitsAux (m + 1) = digitChar ((m + 1) % 10) :: natDigitsAux ((m + 1) / 10) := by
  show natDigitsCore (m + 1) (m + 1) = _
  rw [show natDigitsCore (m + 1) (m + 1) =
    digitChar ((m + 1) % 10) :: natDigitsCore m ((m + 1) / 10) from rfl,
    natDigitsCore_congr ((m + 1) / 10) m
      (Nat.lt_succ_iff.mp (Nat.div_lt_self (Nat.succ_pos m) (by omega)))]

theorem digitVal_digitChar {d : Nat} (h : d < 10) : digitVal (digitChar d) = d := by
  interval_cases d <;> rfl

theorem isDigit_digitChar {d : Nat} (h : d < 10) : (digitChar d).isDigit = true := by
  interval_cases d <;> rfl

theorem digitChar_ne_underscore {d : Nat} (h : d < 10) : digitChar d ≠ '_' := by
  interval_cases d <;> decide

theorem mem_natDigitsAux : ∀ {n : Nat} {c : Char}, c ∈ natDigitsAux n →
    ∃ d, d < 10 ∧ c = digitChar d := by
  intro n
  induction n using Nat.strong_induction_on with
  | _ n ih =>
    intro c h
    rcases n with _ | m
    · simp [natDigitsAux, natDigitsCore] at h
    · rw [natDigitsAux_succ, List.mem_cons] at h
      rcases h with rfl | h
      · exact ⟨(m + 1) % 10, Nat.mod_lt _ (by omega), rfl⟩
      · exact ih ((m + 1) / 10) (Nat.div_lt_self (Nat.succ_pos m) (by omega)) h

theorem valList_append (l : List Char) (c : Char) :
    valList (l ++ [c]) = valList l * 10 + digitVal c := by
  simp [valList, List.foldl_append]

theorem valList_reverse_natDigitsAux (n : Nat) :
    valList (natDigitsAux n).reverse = n := by
  induction n using Nat.strong_induction_on with
  | _ n ih =>
    rcases n with _ | m
    · rfl
    · rw [natDigitsAux_succ, List.reverse_cons, valList_append,
        ih ((m + 1) / 10) (Nat.div_lt_self (Nat.succ_pos m) (by omega)),
        digitVal_digitChar (Nat.mod_lt _ (by omega))]
      omega

theorem natDigitsAux_ne_nil {n : Nat} (h : 0 < n) : natDigitsAux n ≠ [] := by
  rcases n with _ | m
  · omega
  · rw [natDigitsAux_succ]
    simp

theorem all_isDigit_renderNat (n : Nat) : (renderNat n).all Char.isDigit = true := by
  rw [renderNat]
  split
  · rfl
  · rw [List.all_eq_true]
    intro c hc
    obtain ⟨d, hd, rfl⟩ := mem_natDigitsAux (List.mem_reverse.mp hc)
    exact isDigit_digitChar hd

theorem renderNat_ne_nil (n : Nat) : renderNat n ≠ [] := by
  rw [renderNat]
  split
  · simp
  · simpa using natDigitsAux_ne_nil (by omega)

theorem parseDigits_renderNat (n : Nat) : parseDigits (renderNat n) = some n := by
  rw [parseDigits, if_pos ⟨renderNat_ne_nil n, all_isDigit_renderNat n⟩]
  rcases Nat.eq_zero_or_pos n with rfl | hpos
  · rfl
  · rw [renderNat, if_neg (by omega), valList_reverse_natDigitsAux]

theorem head_renderNat_isDigit (n : Nat) :
    ∃ c l, renderNat n = c :: l ∧ c.isDigit = true := by
  rcases h : renderNat n with _ | ⟨c, l⟩
  · exact absurd h (renderNat_ne_nil n)
  · refine ⟨c, l, rfl, ?_⟩
    have := all_isDigit_renderNat n
    rw [h, List.all_cons, Bool.and_eq_true] at this
    exact this.1

theorem pyInt_renderInt (z : Int) : pyInt (renderInt z) = some z := by
  match z with
  | .ofNat n =>
    obtain ⟨c, l, hcl, hdig⟩ := head_renderNat_isDigit n
    have hne : c ≠ '-' := by
      intro h; rw [h] at hdig; exact absurd hdig (by decide)
    rw [renderInt, pyInt, hcl, if_neg (by simpa using hne), ← hcl,
      parseDigits_renderNat]
    rfl
  | .negSucc m =>
    rw [renderInt, pyInt]
    simp [parseDigits_renderNat (m + 1), Int.negSucc_eq]

theorem underscore_not_mem_renderInt (z : Int) : '_' ∉ renderInt z := by
  have hnat : ∀ n : Nat, '_' ∉ renderNat n := by
    intro n hmem
    rw [renderNat] at hmem
    split at hmem
    · simp at hmem
    · obtain ⟨d, hd, hc⟩ := mem_natDigitsAux (List.mem_reverse.mp hmem)
      exact digitChar_ne_underscore hd hc.symm
  match z with
  | .ofNat n => exact hnat n
  | .negSucc m =>
    intro hmem
    rw [renderInt, List.mem_cons] at hmem
    rcases hmem with h | h
    · exact absurd h (by decide)
    · exact hnat (m + 1) h

theorem pySplit_ne_nil (sep : Char) (l : List Char) : pySplit sep l ≠ [] := by
  induction l with
  | nil => simp [pySplit]
  | cons c rest ih =>
    rw [pySplit]
    split
    · simp
    · rcases h : pySplit sep rest with _ | ⟨h', t⟩
      · exact absurd h ih
      · simp

theorem pySplit_no_sep {sep : Char} {l : List Char} (h : sep ∉ l) :
    pySplit sep l = [l] := by
  induction l with
  | nil => rfl
  | cons c rest ih =>
    rw [pySplit, if_neg (by intro hc; exact h (hc ▸ List.mem_cons_self c rest)),
      ih (fun hm => h (List.mem_cons_of_mem c hm))]

theorem parseYearKey_yearKey (y : Int) : parseYearKey (yearKey y) = some y := by
  rw [parseYearKey, yearKey]
  show ((pySplit '_' ('_' :: renderInt y)).getLast?).bind pyInt = some y
  rw [pySplit, if_pos rfl, pySplit_no_sep (underscore_not_mem_renderInt y)]
  simp [pyInt_renderInt]

theorem mem_renderInt_digit_or_dash {z : Int} {c : Char} (h : c ∈ renderInt z) :
    c.isDigit = true ∨ c = '-' := by
  have hnat : ∀ n : Nat, c ∈ renderNat n → c.isDigit = true := by
    intro n hm
    have := all_isDigit_renderNat n
    rw [List.all_eq_true] at this
    exact this c hm
  match z with
  | .ofNat n => exact Or.inl (hnat n h)
  | .negSucc m =>
    rw [renderInt, List.mem_cons] at h
    rcases h with rfl | h
    · exact Or.inr rfl
    · exact Or.inl (hnat (m + 1) h)

theorem sub_punct_sub_space_eq_map (s : String) :
    sub_punct (sub_space s) = ⟨s.data.map specNormChar⟩ := by
  rw [sub_space, sub_punct]
  show String.mk ((s.data.map _).map _) = _
  rw [List.map_map]
  refine congrArg String.mk (List.map_congr_left ?_)
  intro c _
  show (if isPunct (if c = ' ' then '_' else c) then '_' else
    (if c = ' ' then '_' else c)) = specNormChar c
  by_cases hsp : c = ' '
  · subst hsp
    rfl
  · simp [specNormChar, hsp]

/-- Claim C7: `get_key_name` turns a numeric key into an underscore followed
by the decimal string form of the number (which `int()` parses back and whose
characters are digits or a sign), turns a string key into the string with each
space and each of the characters `- : . & ( ) ,` replaced by an underscore,
and returns any key of another type unchanged. -/
theorem claim_C7 :
    (∀ n : Int, get_key_name (.num n) = .str ⟨'_' :: renderInt n⟩ ∧
      pyInt (renderInt n) = some n ∧
      ∀ c ∈ renderInt n, c.isDigit = true ∨ c = '-') ∧
    (∀ s : String, get_key_name (.str s) = .str ⟨s.data.map specNormChar⟩) ∧
    (∀ t : Nat, get_key_name (.other t) = .other t) := by
  refine ⟨fun n => ⟨rfl, pyInt_renderInt n, fun c hc => mem_renderInt_digit_or_dash hc⟩,
    fun s => ?_, fun t => rfl⟩
  rw [get_key_name, sub_punct_sub_space_eq_map]

/-- Witness for claim C7 on concrete keys of each kind. -/
theorem claim_C7_witness :
    get_key_name (.num 2019) = .str "_2019" ∧
    get_key_name (.str "Total Assets & Goodwill, net (B)") =
      .str "Total_Assets___Goodwill__net__B_" ∧
    get_key_name (.other 7) = .other 7 :=
  ⟨(claim_C7.1 2019).1.trans (by decide),
   (claim_C7.2.1 "Total Assets & Goodwill, net (B)").trans (by decide),
   claim_C7.2.2 7⟩

theorem get_idx_congr {α : Type _} (l : List α) {i j : Nat} (hi : i < l.length)
    (hij : i = j) : l.get ⟨i, hi⟩ = l.get ⟨j, hij ▸ hi⟩ := by
  subst hij
  rfl

theorem reverse_get_eq {α : Type _} (l : List α) (jr : Nat) (hjr : jr < l.reverse.length) :
    l.reverse.get ⟨jr, hjr⟩ =
      l.get ⟨l.length - 1 - jr, by rw [List.length_reverse] at hjr; omega⟩ := by
  rw [List.get_eq_getElem, List.get_eq_getElem, List.getElem_reverse]

theorem find_first_spec {α : Type _} (p : α → Bool) :
    ∀ l : List α, (∃ x ∈ l, p x = true) →
    ∃ (i : Nat) (hi : i < l.length), l.findIdx? p = some i ∧
      l.find? p = some (l.get ⟨i, hi⟩) ∧
      p (l.get ⟨i, hi⟩) = true ∧
      ∀ j (hj : j < l.length), j < i → p (l.get ⟨j, hj⟩) = false := by
  intro l
  induction l with
  | nil => intro h; simp at h
  | cons a t ih =>
    intro h
    by_cases hpa : p a = true
    · refine ⟨0, by simp, ?_, ?_, hpa, fun j hj hlt => absurd hlt (Nat.not_lt_zero j)⟩
      · simp [List.findIdx?_cons, hpa]
      · simp [List.find?_cons, hpa]
    · have h' : ∃ x ∈ t, p x = true := by
        rcases h with ⟨x, hx, hpx⟩
        rcases List.mem_cons.mp hx with rfl | hxt
        · exact absurd hpx hpa
        · exact ⟨x, hxt, hpx⟩
      obtain ⟨i, hi, hidx, hfind, hp, hfirst⟩ := ih h'
      refine ⟨i + 1, by simpa using hi, ?_, ?_, hp, ?_⟩
      · rw [List.findIdx?_cons, if_neg hpa]
        show List.findIdx? p t (0 + 1) = some (i + 1)
        rw [List.findIdx?_start_succ, hidx]
        rfl
      · rw [List.find?_cons]
        cases hb : p a
        · exact hfind
        · exact absurd hb hpa
      · intro j hj hlt
        rcases j with _ | j'
        · show p a = false
          simpa using hpa
        · exact hfirst j' (by omega) (by omega)

theorem find_last_spec {α : Type _} (p : α → Bool) (l : List α)
    (h : ∃ x ∈ l, p x = true) :
    ∃ (i : Nat) (hi : i < l.length),
      l.reverse.findIdx? p = some (l.length - 1 - i) ∧
      l.reverse.find? p = some (l.get ⟨i, hi⟩) ∧
      p (l.get ⟨i, hi⟩) = true ∧
      ∀ j (hj : j < l.length), i < j → p (l.get ⟨j, hj⟩) = false := by
  have hrev : ∃ x ∈ l.reverse, p x = true := by
    rcases h with ⟨x, hx, hpx⟩
    exact ⟨x, List.mem_reverse.mpr hx, hpx⟩
  obtain ⟨ir, hir, hidx, hfind, hp, hfirst⟩ := find_first_spec p l.reverse hrev
  have hirl : ir < l.length := by rw [List.length_reverse] at hir; exact hir
  refine ⟨l.length - 1 - ir, by omega, ?_, ?_, ?_, ?_⟩
  · rw [hidx]
    congr 1
    omega
  · rw [hfind, reverse_get_eq]
  · rw [reverse_get_eq] at hp
    exact hp
  · intro j hj hlt
    have hjr : l.length - 1 - j < l.reverse.length := by
      rw [List.length_reverse]
      omega
    have h0 := hfirst (l.length - 1 - j) hjr (by omega)
    rw [reverse_get_eq,
      get_idx_congr l _ (show l.length - 1 - (l.length - 1 - j) = j by omega)] at h0
    exact h0

/-- Claim C3: whenever some entry of a balance-sheet year directory has a
`"Q4"` period, the backward scan returns the entry at the largest directory
index whose period directory contains `"Q4"`: it satisfies the property and
every later (more recent) entry fails it. -/
theorem claim_C3 (yi : YearIndex)
    (h : ∃ k ∈ yi.keys, q4At yi k = true) :
    ∃ (i : Nat) (hi : i < yi.keys.length),
      most_recent_complete_year yi = some (yi.keys.get ⟨i, hi⟩) ∧
      q4At yi (yi.keys.get ⟨i, hi⟩) = true ∧
      ∀ j (hj : j < yi.keys.length), i < j →
        q4At yi (yi.keys.get ⟨j, hj⟩) = false := by
  obtain ⟨i, hi, _, hfind, hp, hfirst⟩ := find_last_spec (q4At yi) yi.keys h
  refine ⟨i, hi, ?_, hp, hfirst⟩
  exact hfind

/-- Witness for claim C3 at the specification's scenario: years 2018-2020
where only 2018 and 2019 are complete. -/
theorem claim_C3_witness :
    (∃ k ∈ exYearIndex.keys, q4At exYearIndex k = true) ∧
    ∃ (i : Nat) (hi : i < exYearIndex.keys.length),
      most_recent_complete_year exYearIndex = some (exYearIndex.keys.get ⟨i, hi⟩) ∧
      q4At exYearIndex (exYearIndex.keys.get ⟨i, hi⟩) = true ∧
      ∀ j (hj : j < exYearIndex.keys.length), i < j →
        q4At exYearIndex (exYearIndex.keys.get ⟨j, hj⟩) = false :=
  ⟨by decide, claim_C3 exYearIndex (by decide)⟩

theorem mapM_parseYearKey_of_norm :
    ∀ l : List String, (∀ k ∈ l, ∃ y : Int, k = yearKey y) →
    ∃ vy : List Int, l.mapM parseYearKey = some vy ∧ l = vy.map yearKey := by
  intro l
  induction l with
  | nil => exact fun _ => ⟨[], rfl, rfl⟩
  | cons k t ih =>
    intro h
    obtain ⟨y, rfl⟩ := h k (List.mem_cons_self _ _)
    obtain ⟨vy, hvy, hl⟩ := ih (fun k' hk' => h k' (List.mem_cons_of_mem _ hk'))
    refine ⟨y :: vy, ?_, by rw [List.map_cons, ← hl]⟩
    rw [List.mapM_cons, parseYearKey_yearKey, hvy]
    rfl

/-- Claim C4: once the backward scan has selected the end year at directory
position `i`, the computed window consists of the up to `n` most recent
directory keys ending at the end year inclusive (a suffix of the directory
prefix up to the end year, hence order-preserving, of length `min n (i+1)`),
and the parsed integer years invert the underscore-prefix normalisation of
the kept keys. -/
theorem claim_C4 (yi : YearIndex) (n : Nat) (hn : 0 < n)
    (hq4 : ∃ k ∈ yi.keys, q4At yi k = true)
    (hnorm : ∀ k ∈ yi.keys, ∃ y : Int, k = yearKey y) :
    ∃ (w : List String) (vy : List Int) (i : Nat) (hi : i < yi.keys.length),
      year_window yi n = some (w, vy) ∧
      most_recent_complete_year yi = some (yi.keys.get ⟨i, hi⟩) ∧
      w.length = min n (i + 1) ∧
      w <:+ yi.keys.take (i + 1) ∧
      w.getLast? = some (yi.keys.get ⟨i, hi⟩) ∧
      w = vy.map yearKey := by
  obtain ⟨i, hi, hidx, hfind, hp, hfirst⟩ := find_last_spec (q4At yi) yi.keys hq4
  have hse : yi.keys.length - (yi.keys.length - 1 - i) = i + 1 := by omega
  have hws : window_slice yi.keys (yi.keys.length - 1 - i) n =
      (yi.keys.take (i + 1)).drop (if i + 1 > n then i + 1 - n else 0) := by
    rw [window_slice]
    show (yi.keys.take (yi.keys.length - (yi.keys.length - 1 - i))).drop
        (if yi.keys.length - (yi.keys.length - 1 - i) > n then
          yi.keys.length - (yi.keys.length - 1 - i) - n else 0) = _
    rw [hse]
  have hw_mem : ∀ k ∈ window_slice yi.keys (yi.keys.length - 1 - i) n, k ∈ yi.keys := by
    intro k hk
    rw [hws] at hk
    exact List.take_subset _ _ ((List.drop_suffix _ _).subset hk)
  obtain ⟨vy, hvy, hwvy⟩ := mapM_parseYearKey_of_norm _ (fun k hk => hnorm k (hw_mem k hk))
  have hwlen : (window_slice yi.keys (yi.keys.length - 1 - i) n).length = min n (i + 1) := by
    rw [hws, List.length_drop, List.length_take, Nat.min_eq_left (by omega)]
    split <;> omega
  refine ⟨window_slice yi.keys (yi.keys.length - 1 - i) n, vy, i, hi, ?_, ?_, hwlen, ?_, ?_, hwvy⟩
  · rw [year_window, hidx, Option.some_bind]
    show ((window_slice yi.keys (yi.keys.length - 1 - i) n).mapM parseYearKey).map
        (fun vy => (window_slice yi.keys (yi.keys.length - 1 - i) n, vy)) = _
    rw [hvy]
    rfl
  · exact hfind
  · rw [hws]
    exact List.drop_suffix _ _
  · rw [List.getLast?_eq_getElem?, hwlen, hws, List.getElem?_drop]
    have hidx_eq : (if i + 1 > n then i + 1 - n else 0) + (min n (i + 1) - 1) = i := by
      split <;> omega
    rw [hidx_eq, List.getElem?_take_of_lt (by omega), List.getElem?_eq_getElem hi,
      List.get_eq_getElem]

/-- Witness for claim C4 at the specification's scenario: a window of 3 years
ending at 2019 taken from years 2015-2019. -/
theorem claim_C4_witness :
    (0 < 3 ∧ (∃ k ∈ exYearIndex5.keys, q4At exYearIndex5 k = true) ∧
      (∀ k ∈ exYearIndex5.keys, ∃ y : Int, k = yearKey y)) ∧
    ∃ (w : List String) (vy : List Int) (i : Nat) (hi : i < exYearIndex5.keys.length),
      year_window exYearIndex5 3 = some (w, vy) ∧
      most_recent_complete_year exYearIndex5 = some (exYearIndex5.keys.get ⟨i, hi⟩) ∧
      w.length = min 3 (i + 1) ∧
      w <:+ exYearIndex5.keys.take (i + 1) ∧
      w.getLast? = some (exYearIndex5.keys.get ⟨i, hi⟩) ∧
      w = vy.map yearKey := by
  have hnorm : ∀ k ∈ exYearIndex5.keys, ∃ y : Int, k = yearKey y := by
    intro k hk
    fin_cases hk
    exacts [⟨2015, by decide⟩, ⟨2016, by decide⟩, ⟨2017, by decide⟩,
      ⟨2018, by decide⟩, ⟨2019, by decide⟩]
  exact ⟨⟨by decide, by decide, hnorm⟩, claim_C4 exYearIndex5 3 (by decide) (by decide) hnorm⟩

theorem standardised_requests_cons (fs : String) (T' : List String) (W : List Int) :
    standardised_requests (fs :: T') W =
      (W.map fun yr => (⟨fs, if fs = "bs" then "Q4" else "FY", yr⟩ : FetchRequest)) ++
        standardised_requests T' W := by
  simp [standardised_requests]

theorem length_standardised_requests (T : List String) (W : List Int) :
    (standardised_requests T W).length = T.length * W.length := by
  induction T with
  | nil => simp [standardised_requests]
  | cons fs T' ih =>
    rw [standardised_requests_cons, List.length_append, List.length_map, ih,
      List.length_cons]
    ring

theorem get_of_getElemOpt {α : Type _} (l : List α) (i : Nat) (hi : i < l.length)
    (x : α) (h : l[i]? = some x) : l.get ⟨i, hi⟩ = x := by
  rw [List.get_eq_getElem]
  exact Option.some.inj ((List.getElem?_eq_getElem hi).symm.trans h)

theorem get_standardised_requests (T : List String) (W : List Int) :
    ∀ (it : Nat) (hit : it < T.length) (iw : Nat) (hiw : iw < W.length)
      (h : it * W.length + iw < (standardised_requests T W).length),
      (standardised_requests T W).get ⟨it * W.length + iw, h⟩ =
        ⟨T.get ⟨it, hit⟩, if T.get ⟨it, hit⟩ = "bs" then "Q4" else "FY",
          W.get ⟨iw, hiw⟩⟩ := by
  induction T with
  | nil => intro it hit; exact absurd hit (by simp)
  | cons fs T' ih =>
    intro it hit iw hiw h
    apply get_of_getElemOpt
    rcases it with _ | it'
    · rw [show 0 * W.length + iw = iw by omega, standardised_requests_cons,
        List.getElem?_append_left (by rw [List.length_map]; exact hiw),
        List.getElem?_map, List.getElem?_eq_getElem hiw]
      simp [List.get_eq_getElem]
    · have hmaplen : (W.map fun yr =>
          (⟨fs, if fs = "bs" then "Q4" else "FY", yr⟩ : FetchRequest)).length =
          W.length := List.length_map _ _
      have hb : (W.map fun yr =>
          (⟨fs, if fs = "bs" then "Q4" else "FY", yr⟩ : FetchRequest)).length ≤
          (it' + 1) * W.length + iw := by
        rw [hmaplen]
        have := Nat.le_mul_of_pos_left W.length (show 0 < it' + 1 by omega)
        omega
      rw [standardised_requests_cons, List.getElem?_append_right hb]
      have harith : (it' + 1) * W.length + iw - (W.map fun yr =>
          (⟨fs, if fs = "bs" then "Q4" else "FY", yr⟩ : FetchRequest)).length =
          it' * W.length + iw := by
        rw [hmaplen]
        have h1 : (it' + 1) * W.length = it' * W.length + W.length := by ring
        omega
      rw [harith]
      have hbound : it' * W.length + iw < (standardised_requests T' W).length := by
        rw [length_standardised_requests]
        have hT' : it' < T'.length := by simpa using hit
        have h1 : (it' + 1) * W.length ≤ T'.length * W.length :=
          Nat.mul_le_mul_right _ (by omega)
        have h2 : (it' + 1) * W.length = it' * W.length + W.length := by ring
        omega
      have hrec := ih it' (by simpa using hit) iw hiw hbound
      rw [List.get_eq_getElem] at hrec
      rw [List.getElem?_eq_getElem hbound, hrec]
      rfl

/-- Claim C2: the request loop issues exactly `|T| × |W|` requests: the
request at flattened position `it·|W| + iw` carries `stype = T[it]`,
`fyear = W[iw]`, and `ptype = "Q4"` when the statement type is `"bs"` and
`"FY"` otherwise; conversely every issued request is of this shape. -/
theorem claim_C2 (T : List String) (W : List Int) :
    (standardised_requests T W).length = T.length * W.length ∧
    (∀ (it : Nat) (hit : it < T.length) (iw : Nat) (hiw : iw < W.length)
      (h : it * W.length + iw < (standardised_requests T W).length),
      (standardised_requests T W).get ⟨it * W.length + iw, h⟩ =
        ⟨T.get ⟨it, hit⟩, if T.get ⟨it, hit⟩ = "bs" then "Q4" else "FY",
          W.get ⟨iw, hiw⟩⟩) ∧
    (∀ req ∈ standardised_requests T W,
      req.stype ∈ T ∧ req.fyear ∈ W ∧
        req.ptype = if req.stype = "bs" then "Q4" else "FY") := by
  refine ⟨length_standardised_requests T W, get_standardised_requests T W,
    fun req hreq => ?_⟩
  rw [standardised_requests, List.mem_flatMap] at hreq
  obtain ⟨fs, hfs, hreq⟩ := hreq
  rw [List.mem_map] at hreq
  obtain ⟨yr, hyr, rfl⟩ := hreq
  exact ⟨hfs, hyr, rfl⟩

/-- Witness for claim C2 at the specification's scenario: statement types
`["bs", "pl", "cf"]` and a five-year window give fifteen requests, and the
request at flattened position `1·5 + 4` is the 2019 profit-and-loss
statement with `ptype = "FY"`. -/
theorem claim_C2_witness :
    (standardised_requests ["bs", "pl", "cf"] [2015, 2016, 2017, 2018, 2019]).length =
      3 * 5 ∧
    (standardised_requests ["bs", "pl", "cf"] [2015, 2016, 2017, 2018, 2019]).get
        ⟨1 * 5 + 4, by decide⟩ = ⟨"pl", "FY", 2019⟩ :=
  ⟨(claim_C2 ["bs", "pl", "cf"] [2015, 2016, 2017, 2018, 2019]).1,
   (claim_C2 ["bs", "pl", "cf"] [2015, 2016, 2017, 2018, 2019]).2.1
     1 (by decide) 4 (by decide) (by decide)⟩

/-- Claim C5 (code bug): on a response whose only statement type has an empty
statement list no fiscal year is observed, and `get_available_statements`
dies with an unchecked out-of-range access on `years_sorted[0]` (modelled by
`none`) instead of raising a caller-visible `IndexingError`. -/
theorem claim_C5 : get_available_statements [("pl", [])] = none := by decide

section AssocLemmas

variable {κ α : Type _} [DecidableEq κ]

theorem assocFind_nil (k : κ) : assocFind ([] : List (κ × α)) k = none := rfl

theorem assocFind_cons (p : κ × α) (rest : List (κ × α)) (k : κ) :
    assocFind (p :: rest) k = if p.1 = k then some p.2 else assocFind rest k := by
  by_cases h : p.1 = k <;> simp [assocFind, List.find?_cons, h]

theorem assocFind_append_left {l1 : List (κ × α)} {k : κ} (l2 : List (κ × α))
    (h : k ∈ l1.map Prod.fst) : assocFind (l1 ++ l2) k = assocFind l1 k := by
  induction l1 with
  | nil => simp at h
  | cons p rest ih =>
    rw [List.cons_append, assocFind_cons, assocFind_cons]
    by_cases hp : p.1 = k
    · rw [if_pos hp, if_pos hp]
    · rw [if_neg hp, if_neg hp]
      refine ih ?_
      rcases List.mem_cons.mp h with h' | h'
      · exact absurd h'.symm hp
      · exact h'

theorem assocFind_append_right {l1 : List (κ × α)} {k : κ} (l2 : List (κ × α))
    (h : k ∉ l1.map Prod.fst) : assocFind (l1 ++ l2) k = assocFind l2 k := by
  induction l1 with
  | nil => rfl
  | cons p rest ih =>
    rw [List.cons_append, assocFind_cons,
      if_neg (fun hp => h (by rw [List.map_cons, hp]; exact List.mem_cons_self _ _))]
    exact ih (fun hm => h (by rw [List.map_cons]; exact List.mem_cons_of_mem _ hm))

theorem mem_map_fst_iff_assocFind (fields : List (κ × α)) (k : κ) :
    k ∈ fields.map Prod.fst ↔ (assocFind fields k).isSome := by
  induction fields with
  | nil => simp [assocFind_nil]
  | cons p rest ih =>
    rw [List.map_cons, List.mem_cons, assocFind_cons]
    by_cases h : p.1 = k
    · simp [h]
    · simp only [if_neg h, ← ih]
      constructor
      · rintro (h' | h')
        · exact absurd h'.symm h
        · exact h'
      · exact Or.inr

theorem assocFind_eq_none_of_not_mem {fields : List (κ × α)} {k : κ}
    (h : k ∉ fields.map Prod.fst) : assocFind fields k = none :=
  Option.not_isSome_iff_eq_none.mp
    (fun hs => h ((mem_map_fst_iff_assocFind fields k).mpr hs))

theorem assocFind_map_update {fields : List (κ × α)} {k : κ} (v : α)
    (hmem : k ∈ fields.map Prod.fst) :
    assocFind (fields.map (fun p => if p.1 = k then (p.1, v) else p)) k = some v := by
  induction fields with
  | nil => simp at hmem
  | cons p rest ih =>
    by_cases h : p.1 = k
    · rw [List.map_cons, if_pos h, assocFind_cons, if_pos h]
    · rw [List.map_cons, if_neg h, assocFind_cons, if_neg h]
      refine ih ?_
      rcases List.mem_cons.mp hmem with h' | h'
      · exact absurd h'.symm h
      · exact h'

theorem assocFind_setAttr_self (fields : List (κ × α)) (k : κ) (v : α) :
    assocFind (setAttr fields k v) k = some v := by
  rw [setAttr]
  split
  · exact assocFind_map_update v (by assumption)
  · rw [assocFind_append_right _ (by assumption), assocFind_cons, if_pos rfl]

theorem assocFind_map_update_ne (fields : List (κ × α)) (k : κ) (v : α) {k' : κ}
    (h : k' ≠ k) :
    assocFind (fields.map (fun p => if p.1 = k then (p.1, v) else p)) k' =
      assocFind fields k' := by
  induction fields with
  | nil => rfl
  | cons p rest ih =>
    by_cases hp : p.1 = k
    · rw [List.map_cons, if_pos hp, assocFind_cons, assocFind_cons,
        if_neg (show ¬ p.1 = k' from fun hk => h (hp.symm.trans hk).symm),
        if_neg (show ¬ p.1 = k' from fun hk => h (hp.symm.trans hk).symm)]
      exact ih
    · rw [List.map_cons, if_neg hp, assocFind_cons, assocFind_cons]
      split
      · rfl
      · exact ih

theorem assocFind_setAttr_ne (fields : List (κ × α)) (k : κ) (v : α) {k' : κ}
    (h : k' ≠ k) : assocFind (setAttr fields k v) k' = assocFind fields k' := by
  rw [setAttr]
  split
  · exact assocFind_map_update_ne fields k v h
  · by_cases hmem : k' ∈ fields.map Prod.fst
    · exact assocFind_append_left _ hmem
    · rw [assocFind_append_right _ hmem, assocFind_cons, if_neg (fun hk => h hk.symm),
        assocFind_nil, assocFind_eq_none_of_not_mem hmem]

theorem map_fst_modifyAt (fields : List (κ × α)) (key : κ) (f : α → α) :
    (fields.map (fun p => if p.1 = key then (p.1, f p.2) else p)).map Prod.fst =
      fields.map Prod.fst := by
  rw [List.map_map]
  refine List.map_congr_left ?_
  intro p _
  by_cases h : p.1 = key <;> simp [h]

theorem map_fst_setAttr (fields : List (κ × α)) (k : κ) (v : α) :
    (setAttr fields k v).map Prod.fst =
      if k ∈ fields.map Prod.fst then fields.map Prod.fst
      else fields.map Prod.fst ++ [k] := by
  rw [setAttr]
  split
  · exact map_fst_modifyAt fields k (fun _ => v)
  · rw [List.map_append]
    rfl

theorem mem_modifyAt_cases {fields : List (κ × α)} {key : κ} {f : α → α} {yk : κ} {b : α}
    (h : (yk, b) ∈ fields.map (fun p => if p.1 = key then (p.1, f p.2) else p)) :
    ∃ a, (yk, a) ∈ fields ∧
      ((yk = key ∧ b = f a) ∨ (yk ≠ key ∧ b = a)) := by
  obtain ⟨p0, hp0, heq⟩ := List.mem_map.mp h
  by_cases hk : p0.1 = key
  · rw [if_pos hk] at heq
    have h1 : p0.1 = yk := congrArg Prod.fst heq
    have h2 : f p0.2 = b := congrArg Prod.snd heq
    refine ⟨p0.2, ?_, Or.inl ⟨(h1 ▸ hk : yk = key).symm ▸ rfl, h2.symm⟩⟩
    rw [← h1]
    exact hp0
  · rw [if_neg hk] at heq
    subst heq
    exact ⟨b, hp0, Or.inr ⟨hk, rfl⟩⟩

theorem setAttr_mid (l1 : List (κ × α)) (k : κ) (v0 v : α) (l2 : List (κ × α))
    (h1 : k ∉ l1.map Prod.fst) (h2 : k ∉ l2.map Prod.fst) :
    setAttr (l1 ++ (k, v0) :: l2) k v = l1 ++ (k, v) :: l2 := by
  rw [setAttr, if_pos (by simp)]
  rw [List.map_append, List.map_cons]
  congr 1
  · refine (List.map_congr_left ?_).trans (List.map_id l1)
    intro p hp
    rw [if_neg (fun hk => h1 (by rw [← hk]; exact List.mem_map_of_mem Prod.fst hp))]
    rfl
  · rw [if_pos rfl]
    congr 1
    refine (List.map_congr_left ?_).trans (List.map_id l2)
    intro p hp
    rw [if_neg (fun hk => h2 (by rw [← hk]; exact List.mem_map_of_mem Prod.fst hp))]
    rfl

end AssocLemmas

theorem setAdd_mem (ys : List Int) (y0 y : Int) :
    y ∈ setAdd ys y0 ↔ y ∈ ys ∨ y = y0 := by
  rw [setAdd]
  split
  · constructor
    · exact Or.inl
    · rintro (h | rfl)
      · exact h
      · assumption
  · simp [List.mem_append]

theorem yearKey_injective {y1 y2 : Int} (h : yearKey y1 = yearKey y2) : y1 = y2 :=
  Option.some.inj (by rw [← parseYearKey_yearKey y1, h, parseYearKey_yearKey])

theorem exists_mem_append_singleton {β : Type _} (l : List β) (x : β) (P : β → Prop) :
    (∃ r ∈ l ++ [x], P r) ↔ (∃ r ∈ l, P r) ∨ P x := by
  constructor
  · rintro ⟨r, hr, hP⟩
    rcases List.mem_append.mp hr with h | h
    · exact Or.inl ⟨r, h, hP⟩
    · rw [List.mem_singleton] at h
      subst h
      exact Or.inr hP
  · rintro (⟨r, hr, hP⟩ | hP)
    · exact ⟨r, List.mem_append_left _ hr, hP⟩
    · exact ⟨x, List.mem_append_right _ (List.mem_singleton_self x), hP⟩

theorem setAttr_nil {κ α : Type _} [DecidableEq κ] (k : κ) (v : α) :
    setAttr [] k v = [(k, v)] := by
  simp [setAttr]
theorem insertInstance_eq_pos (yi : YearIndex) (ys : List Int) (i : StmtRecord)
    (hk : yearKey i.fyear ∈ yi.keys) :
    insertInstance (yi, ys) i =
      (⟨yi.keys, yi.fields.map (fun p => if p.1 = yearKey i.fyear then
        (p.1, periodInsert i p.2) else p)⟩, ys) := by
  simp only [insertInstance]
  rw [if_pos hk]

theorem insertInstance_eq_neg (yi : YearIndex) (ys : List Int) (i : StmtRecord)
    (hk : yearKey i.fyear ∉ yi.keys) :
    insertInstance (yi, ys) i =
      (⟨yi.keys ++ [yearKey i.fyear],
        (yi.fields ++ [(yearKey i.fyear, (⟨[], []⟩ : PeriodIndex))]).map
          (fun p => if p.1 = yearKey i.fyear then (p.1, periodInsert i p.2) else p)⟩,
       setAdd ys i.fyear) := by
  simp only [insertInstance]
  rw [if_neg hk]

theorem insert_pos_inv (ys0 : List Int) (done : List StmtRecord) (yi : YearIndex)
    (ys : List Int) (i : StmtRecord) (h : StInv done yi)
    (hys : ∀ y, y ∈ ys ↔ y ∈ ys0 ∨ ∃ r ∈ done, r.fyear = y)
    (hk : yearKey i.fyear ∈ yi.keys) :
    StInv (done ++ [i])
      ⟨yi.keys, yi.fields.map (fun p => if p.1 = yearKey i.fyear then
        (p.1, periodInsert i p.2) else p)⟩ ∧
    (∀ y, y ∈ ys ↔ y ∈ ys0 ∨ ∃ r ∈ done ++ [i], r.fyear = y) := by
  refine ⟨⟨?_, ?_, ?_, ?_⟩, ?_⟩
  · show yi.keys = (yi.fields.map _).map Prod.fst
    rw [map_fst_modifyAt]
    exact h.keys_eq
  · exact h.keys_nodup
  · intro yk
    show yk ∈ yi.keys ↔ _
    rw [h.keys_mem yk, exists_mem_append_singleton]
    constructor
    · exact Or.inl
    · rintro (hd | hi)
      · exact hd
      · obtain ⟨r', hr', hkey⟩ := (h.keys_mem _).mp hk
        exact ⟨r', hr', hkey.trans hi⟩
  · intro yk pi' hmem'
    have hmem2 : (yk, pi') ∈ yi.fields.map
        (fun p => if p.1 = yearKey i.fyear then (p.1, periodInsert i p.2) else p) := hmem'
    obtain ⟨pi0, hpi0, hcase⟩ := mem_modifyAt_cases hmem2
    obtain ⟨hnd0, hiff0⟩ := h.per_year yk pi0 hpi0
    rcases hcase with ⟨hykk, rfl⟩ | ⟨hykk, rfl⟩
    · subst hykk
      constructor
      · show ((setAttr pi0.fields i.period i).map Prod.fst).Nodup
        rw [map_fst_setAttr]
        split
        · exact hnd0
        · rename_i hnotin
          simp [List.nodup_append, hnd0, hnotin]
      · intro q
        show q ∈ (setAttr pi0.fields i.period i).map Prod.fst ↔ _
        rw [map_fst_setAttr, exists_mem_append_singleton]
        split
        · rename_i hin
          rw [hiff0 q]
          constructor
          · exact Or.inl
          · rintro (hd | ⟨_, hq⟩)
            · exact hd
            · obtain ⟨r', hr', h1, h2⟩ := (hiff0 i.period).mp hin
              exact ⟨r', hr', h1, h2.trans hq⟩
        · rw [List.mem_append, List.mem_singleton, hiff0 q]
          constructor
          · rintro (hd | rfl)
            · exact Or.inl hd
            · exact Or.inr ⟨rfl, rfl⟩
          · rintro (hd | ⟨_, hq⟩)
            · exact Or.inl hd
            · exact Or.inr hq.symm
    · refine ⟨hnd0, fun q => ?_⟩
      rw [hiff0 q, exists_mem_append_singleton]
      constructor
      · exact Or.inl
      · rintro (hd | ⟨h1, _⟩)
        · exact hd
        · exact absurd h1.symm hykk
  · intro y
    rw [hys y, exists_mem_append_singleton]
    constructor
    · rintro (hy | hd)
      · exact Or.inl hy
      · exact Or.inr (Or.inl hd)
    · rintro (hy | hd | hi)
      · exact Or.inl hy
      · exact Or.inr hd
      · obtain ⟨r', hr', hkey⟩ := (h.keys_mem _).mp hk
        exact Or.inr ⟨r', hr', (yearKey_injective hkey).trans hi⟩

theorem insert_neg_inv (ys0 : List Int) (done : List StmtRecord) (yi : YearIndex)
    (ys : List Int) (i : StmtRecord) (h : StInv done yi)
    (hys : ∀ y, y ∈ ys ↔ y ∈ ys0 ∨ ∃ r ∈ done, r.fyear = y)
    (hk : yearKey i.fyear ∉ yi.keys) :
    StInv (done ++ [i])
      ⟨yi.keys ++ [yearKey i.fyear],
        (yi.fields ++ [(yearKey i.fyear, (⟨[], []⟩ : PeriodIndex))]).map
          (fun p => if p.1 = yearKey i.fyear then (p.1, periodInsert i p.2) else p)⟩ ∧
    (∀ y, y ∈ setAdd ys i.fyear ↔ y ∈ ys0 ∨ ∃ r ∈ done ++ [i], r.fyear = y) := by
  have hknotf : yearKey i.fyear ∉ yi.fields.map Prod.fst := fun hm =>
    hk (h.keys_eq ▸ hm)
  have hfields : (yi.fields ++ [(yearKey i.fyear, (⟨[], []⟩ : PeriodIndex))]).map
      (fun p => if p.1 = yearKey i.fyear then (p.1, periodInsert i p.2) else p) =
      yi.fields ++ [(yearKey i.fyear, ⟨[i.period], [(i.period, i)]⟩)] := by
    rw [List.map_append]
    congr 1
    · refine (List.map_congr_left ?_).trans (List.map_id _)
      intro p hp
      have hne : ¬ p.1 = yearKey i.fyear := by
        intro hpk
        exact hknotf (hpk ▸ List.mem_map_of_mem Prod.fst hp)
      rw [if_neg hne]
      rfl
    · simp [periodInsert, setAttr_nil]
  rw [hfields]
  refine ⟨⟨?_, ?_, ?_, ?_⟩, ?_⟩
  · show yi.keys ++ [yearKey i.fyear] = _
    rw [List.map_append, ← h.keys_eq]
    rfl
  · simp [List.nodup_append, h.keys_nodup, hk]
  · intro yk
    show yk ∈ yi.keys ++ [yearKey i.fyear] ↔ _
    rw [List.mem_append, List.mem_singleton, exists_mem_append_singleton,
      h.keys_mem yk]
    constructor
    · rintro (hd | rfl)
      · exact Or.inl hd
      · exact Or.inr rfl
    · rintro (hd | hi)
      · exact Or.inl hd
      · exact Or.inr hi.symm
  · intro yk pi' hmem'
    rcases List.mem_append.mp hmem' with hmem' | hmem'
    · obtain ⟨hnd0, hiff0⟩ := h.per_year yk pi' hmem'
      refine ⟨hnd0, fun q => ?_⟩
      rw [hiff0 q, exists_mem_append_singleton]
      constructor
      · exact Or.inl
      · rintro (hd | ⟨h1, _⟩)
        · exact hd
        · refine absurd ?_ hknotf
          rw [h1]
          exact List.mem_map_of_mem Prod.fst hmem'
    · rw [List.mem_singleton] at hmem'
      have hyk : yk = yearKey i.fyear := congrArg Prod.fst hmem'
      have hpi : pi' = ⟨[i.period], [(i.period, i)]⟩ := congrArg Prod.snd hmem'
      subst hyk
      subst hpi
      refine ⟨by simp, fun q => ?_⟩
      rw [exists_mem_append_singleton]
      show q ∈ ([i.period] : List String) ↔ _
      rw [List.mem_singleton]
      constructor
      · intro hq
        exact Or.inr ⟨rfl, hq.symm⟩
      · rintro (⟨r', hr', h1, h2⟩ | ⟨_, hq⟩)
        · exact absurd ((h.keys_mem _).mpr ⟨r', hr', h1⟩) hk
        · exact hq.symm
  · intro y
    rw [setAdd_mem, hys y, exists_mem_append_singleton]
    constructor
    · rintro ((hy | hd) | hi)
      · exact Or.inl hy
      · exact Or.inr (Or.inl hd)
      · exact Or.inr (Or.inr hi.symm)
    · rintro (hy | hd | hi)
      · exact Or.inl (Or.inl hy)
      · exact Or.inl (Or.inr hd)
      · exact Or.inr hi.symm

theorem insertInstance_inv (ys0 : List Int) (done : List StmtRecord) (yi : YearIndex)
    (ys : List Int) (i : StmtRecord) (h : StInv done yi)
    (hys : ∀ y, y ∈ ys ↔ y ∈ ys0 ∨ ∃ r ∈ done, r.fyear = y) :
    StInv (done ++ [i]) (insertInstance (yi, ys) i).1 ∧
    (∀ y, y ∈ (insertInstance (yi, ys) i).2 ↔
      y ∈ ys0 ∨ ∃ r ∈ done ++ [i], r.fyear = y) := by
  by_cases hk : yearKey i.fyear ∈ yi.keys
  · rw [insertInstance_eq_pos yi ys i hk]
    exact insert_pos_inv ys0 done yi ys i h hys hk
  · rw [insertInstance_eq_neg yi ys i hk]
    exact insert_neg_inv ys0 done yi ys i h hys hk
theorem buildYI_fold_inv (l : List StmtRecord) :
    ∀ (done : List StmtRecord) (yi : YearIndex) (ys ys0 : List Int),
    StInv done yi → (∀ y, y ∈ ys ↔ y ∈ ys0 ∨ ∃ r ∈ done, r.fyear = y) →
    StInv (done ++ l) (l.foldl insertInstance (yi, ys)).1 ∧
    (∀ y, y ∈ (l.foldl insertInstance (yi, ys)).2 ↔
      y ∈ ys0 ∨ ∃ r ∈ done ++ l, r.fyear = y) := by
  induction l with
  | nil =>
    intro done yi ys ys0 h hys
    simpa using ⟨h, hys⟩
  | cons i l' ih =>
    intro done yi ys ys0 h hys
    rw [List.foldl_cons, show done ++ i :: l' = (done ++ [i]) ++ l' by simp]
    obtain ⟨h1, h2⟩ := insertInstance_inv ys0 done yi ys i h hys
    exact ih (done ++ [i]) (insertInstance (yi, ys) i).1 (insertInstance (yi, ys) i).2
      ys0 h1 h2

theorem buildYearIndex_inv (l : List StmtRecord) (ys0 : List Int) :
    StInv l (buildYearIndex l ys0).1 ∧
    (∀ y, y ∈ (buildYearIndex l ys0).2 ↔ y ∈ ys0 ∨ ∃ r ∈ l, r.fyear = y) := by
  have hstart : StInv [] (⟨[], []⟩ : YearIndex) := by
    refine ⟨rfl, List.nodup_nil, fun yk => ?_, fun yk pi hmem => ?_⟩
    · simp
    · simp at hmem
  have h := buildYI_fold_inv l [] ⟨[], []⟩ ys0 ys0 hstart (fun y => by simp)
  simpa [buildYearIndex] using h

theorem insertInstance_fst_indep (yi : YearIndex) (ys ys' : List Int) (i : StmtRecord) :
    (insertInstance (yi, ys) i).1 = (insertInstance (yi, ys') i).1 := by
  by_cases hk : yearKey i.fyear ∈ yi.keys
  · rw [insertInstance_eq_pos yi ys i hk, insertInstance_eq_pos yi ys' i hk]
  · rw [insertInstance_eq_neg yi ys i hk, insertInstance_eq_neg yi ys' i hk]

theorem foldl_insertInstance_fst_indep (l : List StmtRecord) :
    ∀ (yi : YearIndex) (ys ys' : List Int),
    (l.foldl insertInstance (yi, ys)).1 = (l.foldl insertInstance (yi, ys')).1 := by
  induction l with
  | nil => intro yi ys ys'; rfl
  | cons i l' ih =>
    intro yi ys ys'
    rw [List.foldl_cons, List.foldl_cons]
    calc (l'.foldl insertInstance (insertInstance (yi, ys) i)).1
        = (l'.foldl insertInstance
            ((insertInstance (yi, ys) i).1, (insertInstance (yi, ys) i).2)).1 := rfl
      _ = (l'.foldl insertInstance
            ((insertInstance (yi, ys') i).1, (insertInstance (yi, ys) i).2)).1 := by
          rw [insertInstance_fst_indep yi ys ys' i]
      _ = (l'.foldl insertInstance
            ((insertInstance (yi, ys') i).1, (insertInstance (yi, ys') i).2)).1 :=
          ih _ _ _
      _ = (l'.foldl insertInstance (insertInstance (yi, ys') i)).1 := rfl

theorem buildYearIndex_fst_indep (l : List StmtRecord) (ys ys' : List Int) :
    (buildYearIndex l ys).1 = (buildYearIndex l ys').1 :=
  foldl_insertInstance_fst_indep l _ ys ys'

theorem availStep_eq (keys0 : List String) (F : List (String × TopVal))
    (ys : List Int) (p : String × List StmtRecord) :
    availStep (⟨keys0, F⟩, ys) p =
      (⟨keys0, setAttr F p.1 (TopVal.indexed
        ⟨List.insertionSort pyLe (buildYearIndex p.2 ys).1.keys,
         (buildYearIndex p.2 ys).1.fields⟩)⟩,
       (buildYearIndex p.2 ys).2) := rfl

theorem availStep_indexed_eq (p2 : List StmtRecord) (ys : List Int) :
    (⟨List.insertionSort pyLe (buildYearIndex p2 ys).1.keys,
      (buildYearIndex p2 ys).1.fields⟩ : YearIndex) = statement_year_index p2 := by
  rw [statement_year_index, buildYearIndex_fst_indep p2 ys []]

theorem avail_fold (rest : List (String × List StmtRecord)) :
    ∀ (pre : List (String × TopVal)) (keys0 : List String) (ys : List Int),
    (∀ fs ∈ rest.map Prod.fst, fs ∉ pre.map Prod.fst) →
    (rest.map Prod.fst).Nodup →
    (rest.foldl availStep
        (⟨keys0, pre ++ rest.map (fun p => (p.1, TopVal.flat p.2))⟩, ys)).1 =
      ⟨keys0, pre ++ rest.map
        (fun p => (p.1, TopVal.indexed (statement_year_index p.2)))⟩ ∧
    (∀ y, y ∈ (rest.foldl availStep
        (⟨keys0, pre ++ rest.map (fun p => (p.1, TopVal.flat p.2))⟩, ys)).2 ↔
      y ∈ ys ∨ ∃ p ∈ rest, ∃ r ∈ p.2, r.fyear = y) := by
  induction rest with
  | nil =>
    intro pre keys0 ys hdisj hnodup
    refine ⟨by simp, fun y => by simp⟩
  | cons p rest' ih =>
    intro pre keys0 ys hdisj hnodup
    have hnodup_cons := hnodup
    rw [List.map_cons, List.nodup_cons] at hnodup_cons
    have h1 : p.1 ∉ pre.map Prod.fst := hdisj p.1 (by rw [List.map_cons]; exact List.mem_cons_self _ _)
    have h2 : p.1 ∉ (rest'.map (fun q => (q.1, TopVal.flat q.2))).map Prod.fst := by
      have hfst : (rest'.map (fun q => (q.1, TopVal.flat q.2))).map Prod.fst =
          rest'.map Prod.fst := by
        rw [List.map_map]
        rfl
      rw [hfst]
      exact hnodup_cons.1
    simp only [List.map_cons, List.foldl_cons]
    rw [availStep_eq, setAttr_mid pre p.1 (TopVal.flat p.2) _ _ h1 h2,
      availStep_indexed_eq p.2 ys,
      show pre ++ (p.1, TopVal.indexed (statement_year_index p.2)) ::
          rest'.map (fun q => (q.1, TopVal.flat q.2)) =
        (pre ++ [(p.1, TopVal.indexed (statement_year_index p.2))]) ++
          rest'.map (fun q => (q.1, TopVal.flat q.2)) by simp]
    have hdisj' : ∀ fs ∈ rest'.map Prod.fst,
        fs ∉ (pre ++ [(p.1, TopVal.indexed (statement_year_index p.2))]).map Prod.fst := by
      intro fs hfs
      rw [List.map_append, List.mem_append]
      rintro (hmem | hmem)
      · exact hdisj fs (by rw [List.map_cons]; exact List.mem_cons_of_mem _ hfs) hmem
      · simp only [List.map_cons, List.map_nil, List.mem_singleton] at hmem
        subst hmem
        exact hnodup_cons.1 hfs
    obtain ⟨hfields, hys2⟩ := ih (pre ++ [(p.1, TopVal.indexed (statement_year_index p.2))])
      keys0 (buildYearIndex p.2 ys).2 hdisj' hnodup_cons.2
    constructor
    · rw [hfields]
      congr 1
      simp
    · intro y
      rw [hys2 y, (buildYearIndex_inv p.2 ys).2 y]
      constructor
      · rintro ((hy | ⟨r, hr, hry⟩) | ⟨p', hp', r, hr, hry⟩)
        · exact Or.inl hy
        · exact Or.inr ⟨p, List.mem_cons_self _ _, r, hr, hry⟩
        · exact Or.inr ⟨p', List.mem_cons_of_mem _ hp', r, hr, hry⟩
      · rintro (hy | ⟨p', hp', r, hr, hry⟩)
        · exact Or.inl (Or.inl hy)
        · rcases List.mem_cons.mp hp' with rfl | hp'
          · exact Or.inl (Or.inr ⟨r, hr, hry⟩)
          · exact Or.inr ⟨p', hp', r, hr, hry⟩
theorem mem_of_assocFind_some {κ α : Type _} [DecidableEq κ] {fields : List (κ × α)}
    {k : κ} {v : α} (h : assocFind fields k = some v) : (k, v) ∈ fields := by
  induction fields with
  | nil => cases h
  | cons p rest ih =>
    rw [assocFind_cons] at h
    split at h
    · rename_i hpk
      obtain rfl := Option.some.inj h
      rw [← hpk]
      exact List.mem_cons_self p rest
    · exact List.mem_cons_of_mem _ (ih h)

theorem count_triple_map (fs0 yk0 q0 : String) (l : List (String × StmtRecord)) :
    (l.map (fun pp => (fs0, yk0, pp.1))).count (fs0, yk0, q0) =
      (l.map Prod.fst).count q0 := by
  induction l with
  | nil => rfl
  | cons pp rest ih =>
    rw [List.map_cons, List.map_cons, List.count_cons, List.count_cons, ih]
    by_cases h : pp.1 = q0 <;> simp [h]

theorem count_stmt_paths_zero (fs0 yk0 q0 : String) (L : List (String × PeriodIndex))
    (h : yk0 ∉ L.map Prod.fst) :
    (L.flatMap (fun yp => yp.2.fields.map (fun pp => (fs0, yp.1, pp.1)))).count
      (fs0, yk0, q0) = 0 := by
  rw [List.count_eq_zero]
  intro hmem
  obtain ⟨yp, hyp, hmem2⟩ := List.mem_flatMap.mp hmem
  obtain ⟨pp, _, heq⟩ := List.mem_map.mp hmem2
  have : yp.1 = yk0 := congrArg (fun t => t.2.1) heq
  exact h (this ▸ List.mem_map_of_mem Prod.fst hyp)

theorem count_stmt_paths (fs0 yk0 q0 : String) :
    ∀ L : List (String × PeriodIndex),
    (L.map Prod.fst).Nodup →
    (∀ yk pi, (yk, pi) ∈ L → (pi.fields.map Prod.fst).Nodup) →
    (∃ pi, (yk0, pi) ∈ L ∧ q0 ∈ pi.fields.map Prod.fst) →
    (L.flatMap (fun yp => yp.2.fields.map (fun pp => (fs0, yp.1, pp.1)))).count
      (fs0, yk0, q0) = 1 := by
  intro L
  induction L with
  | nil =>
    rintro _ _ ⟨pi, hpi, _⟩
    simp at hpi
  | cons yp L' ih =>
    rintro hnodup hpinodup ⟨pi', hpi', hq0⟩
    have hnodup' := hnodup
    rw [List.map_cons, List.nodup_cons] at hnodup'
    rw [List.flatMap_cons, List.count_append]
    by_cases hyk : yp.1 = yk0
    · have hpieq : pi' = yp.2 := by
        rcases List.mem_cons.mp hpi' with h | h
        · exact congrArg Prod.snd h
        · exact absurd (List.mem_map_of_mem Prod.fst h) (hyk ▸ hnodup'.1)
      subst hpieq
      rw [hyk, count_triple_map,
        List.count_eq_one_of_mem
          (hpinodup yk0 yp.2 (by rw [← hyk]; exact List.mem_cons_self yp L')) hq0,
        count_stmt_paths_zero fs0 yk0 q0 L' (hyk ▸ hnodup'.1)]
    · have hz : ((yp.2.fields.map (fun pp => (fs0, yp.1, pp.1))).count (fs0, yk0, q0)) = 0 := by
        rw [List.count_eq_zero]
        intro hmem
        obtain ⟨pp, _, heq⟩ := List.mem_map.mp hmem
        exact hyk (congrArg (fun t => t.2.1) heq)
      rw [hz, Nat.zero_add]
      refine ih hnodup'.2 (fun yk pi h => hpinodup yk pi (List.mem_cons_of_mem _ h)) ?_
      refine ⟨pi', ?_, hq0⟩
      rcases List.mem_cons.mp hpi' with h | h
      · exact absurd (congrArg Prod.fst h).symm hyk
      · exact h

theorem pathsOf_append (A B : List (String × TopVal)) :
    pathsOf (A ++ B) = pathsOf A ++ pathsOf B := by
  rw [pathsOf, pathsOf, pathsOf, List.flatMap_append]

theorem mem_pathsOf {L : List (String × TopVal)} {t : String × String × String}
    (h : t ∈ pathsOf L) :
    ∃ fs yi, (fs, TopVal.indexed yi) ∈ L ∧ ∃ yk pi, (yk, pi) ∈ yi.fields ∧
      ∃ pr, pr ∈ pi.fields ∧ t = (fs, yk, pr.1) := by
  rw [pathsOf, List.mem_flatMap] at h
  obtain ⟨q, hq, ht⟩ := h
  rcases q with ⟨fs, tv⟩
  cases tv with
  | flat l => simp at ht
  | range ys => simp at ht
  | indexed yi =>
    rw [List.mem_flatMap] at ht
    obtain ⟨yp, hyp, ht2⟩ := ht
    obtain ⟨pp, hpp, heq⟩ := List.mem_map.mp ht2
    exact ⟨fs, yi, hq, yp.1, yp.2, hyp, pp, hpp, heq.symm⟩

theorem count_top_zero (fs0 yk0 q0 : String) (L : List (String × TopVal))
    (h : fs0 ∉ L.map Prod.fst) :
    (pathsOf L).count (fs0, yk0, q0) = 0 := by
  rw [List.count_eq_zero]
  intro hmem
  obtain ⟨fs, yi, hfsL, yk, pi, hpi, pr, hpr, heq⟩ := mem_pathsOf hmem
  have hfs : fs = fs0 := (congrArg Prod.fst heq).symm
  exact h (hfs ▸ List.mem_map_of_mem Prod.fst hfsL)

theorem count_top_paths (fs0 yk0 q0 : String) :
    ∀ L : List (String × TopVal),
    (L.map Prod.fst).Nodup →
    ∀ yi : YearIndex, (fs0, TopVal.indexed yi) ∈ L →
    (yi.fields.map Prod.fst).Nodup →
    (∀ yk pi, (yk, pi) ∈ yi.fields → (pi.fields.map Prod.fst).Nodup) →
    (∃ pi, (yk0, pi) ∈ yi.fields ∧ q0 ∈ pi.fields.map Prod.fst) →
    (pathsOf L).count (fs0, yk0, q0) = 1 := by
  intro L
  induction L with
  | nil =>
    intro _ yi hmem
    simp at hmem
  | cons q L' ih =>
    intro hnodup yi hmem hyn hpn hex
    have hnodup' := hnodup
    rw [List.map_cons, List.nodup_cons] at hnodup'
    rw [show pathsOf (q :: L') = pathsOf [q] ++ pathsOf L' from by
        rw [← pathsOf_append]; rfl,
      List.count_append]
    rcases List.mem_cons.mp hmem with heq | hmem'
    · obtain rfl := heq.symm
      rw [show pathsOf [(fs0, TopVal.indexed yi)] =
          yi.fields.flatMap (fun yp => yp.2.fields.map (fun pp => (fs0, yp.1, pp.1)))
          from by simp [pathsOf],
        count_stmt_paths fs0 yk0 q0 yi.fields hyn hpn hex,
        count_top_zero fs0 yk0 q0 L' hnodup'.1]
    · have hq1 : q.1 ≠ fs0 := by
        intro hq
        exact hnodup'.1 (hq ▸ List.mem_map_of_mem Prod.fst hmem')
      have hz : (pathsOf [q]).count (fs0, yk0, q0) = 0 :=
        count_top_zero fs0 yk0 q0 [q] (by
          simp only [List.map_cons, List.map_nil, List.mem_singleton]
          exact fun hh => hq1 hh.symm)
      rw [hz, Nat.zero_add]
      exact ih hnodup'.2 yi hmem' hyn hpn hex

theorem sorted_head_min {l : List Int} (hs : l.Sorted (· ≤ ·)) {a : Int}
    (hh : l.head? = some a) : a ∈ l ∧ ∀ y ∈ l, a ≤ y := by
  rcases l with _ | ⟨x, t⟩
  · cases hh
  · obtain rfl : x = a := Option.some.inj hh
    refine ⟨List.mem_cons_self _ _, fun y hy => ?_⟩
    rcases List.mem_cons.mp hy with rfl | hy
    · exact le_refl _
    · exact (List.sorted_cons.mp hs).1 y hy

theorem sorted_getLast_max {l : List Int} (hs : l.Sorted (· ≤ ·)) {b : Int}
    (hl : l.getLast? = some b) : b ∈ l ∧ ∀ y ∈ l, y ≤ b := by
  induction l with
  | nil => cases hl
  | cons x t ih =>
    rcases ht : t with _ | ⟨c, t'⟩
    · subst ht
      obtain rfl : x = b := Option.some.inj hl
      refine ⟨List.mem_cons_self _ _, fun y hy => ?_⟩
      rcases List.mem_cons.mp hy with rfl | hy
      · exact le_refl _
      · simp at hy
    · subst ht
      rw [List.getLast?_cons_cons] at hl
      have hsc := List.sorted_cons.mp hs
      obtain ⟨hbmem, hble⟩ := ih hsc.2 hl
      refine ⟨List.mem_cons_of_mem _ hbmem, fun y hy => ?_⟩
      rcases List.mem_cons.mp hy with rfl | hy
      · exact hsc.1 b hbmem
      · exact hble y hy

theorem foldl_availStep_keys (rest : List (String × List StmtRecord)) :
    ∀ (st : AvailObj) (ys : List Int),
    ((rest.foldl availStep (st, ys)).1).keys = st.keys := by
  induction rest with
  | nil => intro st ys; rfl
  | cons p rest' ih =>
    intro st ys
    rw [List.foldl_cons]
    calc ((rest'.foldl availStep (availStep (st, ys) p)).1).keys
        = ((rest'.foldl availStep
            ((availStep (st, ys) p).1, (availStep (st, ys) p).2)).1).keys := rfl
      _ = (availStep (st, ys) p).1.keys := ih _ _
      _ = st.keys := rfl

theorem get_available_statements_eq (resp : List (String × List StmtRecord))
    (a b : Int)
    (hh : (List.insertionSort (· ≤ ·) (resp.foldl availStep
      (⟨resp.map Prod.fst, resp.map (fun p => (p.1, TopVal.flat p.2))⟩,
        ([] : List Int))).2).head? = some a)
    (hl : (List.insertionSort (· ≤ ·) (resp.foldl availStep
      (⟨resp.map Prod.fst, resp.map (fun p => (p.1, TopVal.flat p.2))⟩,
        ([] : List Int))).2).getLast? = some b) :
    get_available_statements resp = some
      ⟨(resp.foldl availStep
          (⟨resp.map Prod.fst, resp.map (fun p => (p.1, TopVal.flat p.2))⟩,
            ([] : List Int))).1.keys,
       setAttr (resp.foldl availStep
          (⟨resp.map Prod.fst, resp.map (fun p => (p.1, TopVal.flat p.2))⟩,
            ([] : List Int))).1.fields "year_range" (TopVal.range [a, b])⟩ := by
  simp only [get_available_statements]
  rw [hh, hl]
/-- Claim C1: on every non-empty flat available-statements response (with
distinct statement-type codes, none named `year_range`), the reorganisation
succeeds, every `(statement-type, fiscal-year, period)` triple of the input
appears as exactly one lookup path of the output index and every lookup path
comes from an input triple, every statement-type's year directory is sorted
ascending, and `year_range` is `[min, max]` of the fiscal years observed
across all statement types. -/
theorem claim_C1 (resp : List (String × List StmtRecord))
    (hnodup : (resp.map Prod.fst).Nodup)
    (hyr : "year_range" ∉ resp.map Prod.fst)
    (hne : ∃ p ∈ resp, p.2 ≠ []) :
    ∃ out : AvailObj, get_available_statements resp = some out ∧
      (∀ p ∈ resp, ∀ r ∈ p.2,
        (pathsOf out.fields).count (p.1, yearKey r.fyear, r.period) = 1) ∧
      (∀ t ∈ pathsOf out.fields, ∃ p ∈ resp, ∃ r ∈ p.2,
        t = (p.1, yearKey r.fyear, r.period)) ∧
      (∀ fs yi, assocFind out.fields fs = some (TopVal.indexed yi) →
        yi.keys.Sorted pyLe) ∧
      (∃ a b, assocFind out.fields "year_range" = some (TopVal.range [a, b]) ∧
        (∃ p ∈ resp, ∃ r ∈ p.2, r.fyear = a) ∧
        (∃ p ∈ resp, ∃ r ∈ p.2, r.fyear = b) ∧
        (∀ p ∈ resp, ∀ r ∈ p.2, a ≤ r.fyear ∧ r.fyear ≤ b)) := by
  obtain ⟨hfold1, hfold2⟩ := avail_fold resp [] (resp.map Prod.fst) [] (by simp) hnodup
  simp only [List.nil_append] at hfold1 hfold2
  set FL := resp.foldl availStep
    (⟨resp.map Prod.fst, resp.map (fun p => (p.1, TopVal.flat p.2))⟩, ([] : List Int))
    with hFL
  obtain ⟨p0, hp0, hp0ne⟩ := hne
  obtain ⟨r0, hr0⟩ := List.exists_mem_of_ne_nil p0.2 hp0ne
  have hy0 : r0.fyear ∈ FL.2 := (hfold2 r0.fyear).mpr (Or.inr ⟨p0, hp0, r0, hr0, rfl⟩)
  set ls := List.insertionSort (· ≤ ·) FL.2 with hls
  have hsorted : ls.Sorted (· ≤ ·) := List.sorted_insertionSort _ _
  have hmemls : ∀ y, y ∈ ls ↔ y ∈ FL.2 :=
    fun y => (List.perm_insertionSort (· ≤ ·) FL.2).mem_iff
  have hlsne : ls ≠ [] := List.ne_nil_of_mem ((hmemls _).mpr hy0)
  obtain ⟨a, hh⟩ : ∃ a, ls.head? = some a :=
    ⟨ls.head hlsne, List.head?_eq_head hlsne⟩
  obtain ⟨b, hlast⟩ : ∃ b, ls.getLast? = some b :=
    ⟨ls.getLast hlsne, List.getLast?_eq_getLast ls hlsne⟩
  have hmin := sorted_head_min hsorted hh
  have hmax := sorted_getLast_max hsorted hlast
  have hy_mem : ∀ y, y ∈ ls ↔ ∃ p ∈ resp, ∃ r ∈ p.2, r.fyear = y := by
    intro y
    rw [hmemls y, hfold2 y]
    simp
  rw [hls, hFL] at hh hlast
  have hget := get_available_statements_eq resp a b hh hlast
  rw [← hFL] at hget
  have hFfields : FL.1.fields =
      resp.map (fun p => (p.1, TopVal.indexed (statement_year_index p.2))) := by
    rw [hfold1]
  have houtf : ((⟨FL.1.keys,
      setAttr FL.1.fields "year_range" (TopVal.range [a, b])⟩ : AvailObj)).fields =
      setAttr (resp.map (fun p => (p.1, TopVal.indexed (statement_year_index p.2))))
        "year_range" (TopVal.range [a, b]) := by
    show setAttr FL.1.fields "year_range" (TopVal.range [a, b]) = _
    rw [hFfields]
  have hmapfst :
      (resp.map (fun p => (p.1, TopVal.indexed (statement_year_index p.2)))).map
        Prod.fst = resp.map Prod.fst := by
    rw [List.map_map]
    rfl
  have hsetapp : setAttr
      (resp.map (fun p => (p.1, TopVal.indexed (statement_year_index p.2))))
      "year_range" (TopVal.range [a, b]) =
      resp.map (fun p => (p.1, TopVal.indexed (statement_year_index p.2))) ++
        [("year_range", TopVal.range [a, b])] := by
    rw [setAttr, if_neg]
    rw [hmapfst]
    exact hyr
  have hpaths : pathsOf ((⟨FL.1.keys,
      setAttr FL.1.fields "year_range" (TopVal.range [a, b])⟩ : AvailObj)).fields =
      pathsOf (resp.map (fun p => (p.1, TopVal.indexed (statement_year_index p.2)))) := by
    rw [houtf, hsetapp, pathsOf_append,
      show pathsOf [("year_range", TopVal.range [a, b])] = [] from by simp [pathsOf],
      List.append_nil]
  refine ⟨_, hget, ?_, ?_, ?_, ?_⟩
  · intro p hp r hr
    rw [hpaths]
    have hSt := (buildYearIndex_inv p.2 []).1
    refine count_top_paths p.1 (yearKey r.fyear) r.period _
      (by rw [hmapfst]; exact hnodup) (statement_year_index p.2)
      (List.mem_map_of_mem _ hp) (hSt.keys_eq ▸ hSt.keys_nodup)
      (fun yk pi hm => (hSt.per_year yk pi hm).1) ?_
    have hkmem : yearKey r.fyear ∈ (buildYearIndex p.2 []).1.keys :=
      (hSt.keys_mem _).mpr ⟨r, hr, rfl⟩
    rw [hSt.keys_eq] at hkmem
    obtain ⟨entry, hentry, heq⟩ := List.mem_map.mp hkmem
    refine ⟨entry.2, ?_, ?_⟩
    · rw [← heq]
      exact hentry
    · exact ((hSt.per_year entry.1 entry.2 hentry).2 r.period).mpr ⟨r, hr, heq.symm, rfl⟩
  · intro t ht
    rw [hpaths] at ht
    obtain ⟨fs, yi, hfsmem, yk, pi, hpi, pr, hpr, heqt⟩ := mem_pathsOf ht
    obtain ⟨p, hp, heqp⟩ := List.mem_map.mp hfsmem
    have hfs : p.1 = fs := congrArg Prod.fst heqp
    have hyi : TopVal.indexed (statement_year_index p.2) = TopVal.indexed yi :=
      congrArg Prod.snd heqp
    have hyi' : statement_year_index p.2 = yi := TopVal.indexed.inj hyi
    have hSt := (buildYearIndex_inv p.2 []).1
    rw [← hyi'] at hpi
    obtain ⟨r, hrmem, hryk, hrper⟩ :=
      ((hSt.per_year yk pi hpi).2 pr.1).mp (List.mem_map_of_mem Prod.fst hpr)
    exact ⟨p, hp, r, hrmem, by rw [heqt, ← hfs, ← hryk, ← hrper]⟩
  · intro fs yi hfind
    rw [houtf, hsetapp] at hfind
    by_cases hfs : fs ∈
        (resp.map (fun p => (p.1, TopVal.indexed (statement_year_index p.2)))).map
          Prod.fst
    · rw [assocFind_append_left _ hfs] at hfind
      have hmem := mem_of_assocFind_some hfind
      obtain ⟨p, hp, heqp⟩ := List.mem_map.mp hmem
      have hyi : statement_year_index p.2 = yi :=
        TopVal.indexed.inj (congrArg Prod.snd heqp)
      rw [← hyi]
      exact List.sorted_insertionSort _ _
    · rw [assocFind_append_right _ hfs, assocFind_cons] at hfind
      split at hfind
      · exact absurd (Option.some.inj hfind) (fun hcc => TopVal.noConfusion hcc)
      · exact Option.noConfusion hfind
  · refine ⟨a, b, ?_, (hy_mem a).mp hmin.1, (hy_mem b).mp hmax.1, ?_⟩
    · exact assocFind_setAttr_self _ _ _
    · intro p hp r hr
      have hrin : r.fyear ∈ ls := (hy_mem r.fyear).mpr ⟨p, hp, r, hr, rfl⟩
      exact ⟨hmin.2 _ hrin, hmax.2 _ hrin⟩

/-- Witness for claim C1 at the example response `exResp`. -/
theorem claim_C1_witness :
    ((exResp.map Prod.fst).Nodup ∧ "year_range" ∉ exResp.map Prod.fst ∧
      ∃ p ∈ exResp, p.2 ≠ []) ∧
    ∃ out : AvailObj, get_available_statements exResp = some out ∧
      (∀ p ∈ exResp, ∀ r ∈ p.2,
        (pathsOf out.fields).count (p.1, yearKey r.fyear, r.period) = 1) ∧
      (∀ t ∈ pathsOf out.fields, ∃ p ∈ exResp, ∃ r ∈ p.2,
        t = (p.1, yearKey r.fyear, r.period)) ∧
      (∀ fs yi, assocFind out.fields fs = some (TopVal.indexed yi) →
        yi.keys.Sorted pyLe) ∧
      (∃ a b, assocFind out.fields "year_range" = some (TopVal.range [a, b]) ∧
        (∃ p ∈ exResp, ∃ r ∈ p.2, r.fyear = a) ∧
        (∃ p ∈ exResp, ∃ r ∈ p.2, r.fyear = b) ∧
        (∀ p ∈ exResp, ∀ r ∈ p.2, a ≤ r.fyear ∧ r.fyear ≤ b)) :=
  ⟨⟨by decide, by decide, by decide⟩,
   claim_C1 exResp (by decide) (by decide) (by decide)⟩

/-- Claim C10: after `get_available_statements` returns, the top-level
object's `keys` directory holds exactly the statement-type codes of the
original response; `year_range` is attached as an attribute without being
appended to `keys`, so iterating the directory never yields `year_range`. -/
theorem claim_C10 (resp : List (String × List StmtRecord))
    (hyr : "year_range" ∉ resp.map Prod.fst) (out : AvailObj)
    (h : get_available_statements resp = some out) :
    out.keys = resp.map Prod.fst ∧
    "year_range" ∉ out.keys ∧
    ∃ ab, assocFind out.fields "year_range" = some (TopVal.range ab) := by
  simp only [get_available_statements] at h
  rcases hh : (List.insertionSort (· ≤ ·) (resp.foldl availStep
      (⟨resp.map Prod.fst, resp.map (fun p => (p.1, TopVal.flat p.2))⟩,
        ([] : List Int))).2).head? with _ | a <;>
    rcases hl : (List.insertionSort (· ≤ ·) (resp.foldl availStep
      (⟨resp.map Prod.fst, resp.map (fun p => (p.1, TopVal.flat p.2))⟩,
        ([] : List Int))).2).getLast? with _ | b <;>
    rw [hh, hl] at h <;> simp only [Option.some.injEq] at h
  · exact absurd h (by simp)
  · exact absurd h (by simp)
  · exact absurd h (by simp)
  · subst h
    have hkeys : (resp.foldl availStep
        (⟨resp.map Prod.fst, resp.map (fun p => (p.1, TopVal.flat p.2))⟩,
          ([] : List Int))).1.keys = resp.map Prod.fst := by
      rw [foldl_availStep_keys]
    refine ⟨hkeys, ?_, ⟨[a, b], assocFind_setAttr_self _ _ _⟩⟩
    show "year_range" ∉ (resp.foldl availStep
      (⟨resp.map Prod.fst, resp.map (fun p => (p.1, TopVal.flat p.2))⟩,
        ([] : List Int))).1.keys
    rw [hkeys]
    exact hyr

/-- Witness for claim C10 at the example response `exResp` and its computed
reorganisation `exAvailObj`. -/
theorem claim_C10_witness :
    ("year_range" ∉ exResp.map Prod.fst ∧
      get_available_statements exResp = some exAvailObj) ∧
    (exAvailObj.keys = exResp.map Prod.fst ∧
      "year_range" ∉ exAvailObj.keys ∧
      ∃ ab, assocFind exAvailObj.fields "year_range" = some (TopVal.range ab)) :=
  ⟨⟨by decide, by decide⟩, claim_C10 exResp (by decide) exAvailObj (by decide)⟩

/-! ## ResponseTree lemmas -/

theorem keysFold_general (kvs : List (PyKey × Node)) :
    ∀ acc : List PyKey,
      kvs.foldl (fun a kv => a ++ [kv.1]) acc = acc ++ kvs.map Prod.fst := by
  induction kvs with
  | nil => intro acc; simp
  | cons kv rest ih =>
    intro acc
    rw [List.foldl_cons, ih]
    simp

theorem keysFold_eq_map (kvs : List (PyKey × Node)) :
    keysFold kvs = kvs.map Prod.fst :=
  (keysFold_general kvs []).trans (List.nil_append _)

theorem buildKVs_map_fst (es : List (PyKey × JSON)) :
    (buildKVs es).map Prod.fst = objKeys es := by
  induction es with
  | nil => rfl
  | cons e rest ih =>
    rcases e with ⟨k, v⟩
    show get_key_name k :: (buildKVs rest).map Prod.fst = objKeys ((k, v) :: rest)
    rw [ih]
    rfl

theorem mkFields_general (kvs : List (PyKey × Node)) :
    ∀ acc : List (PyKey × Node),
      (∀ kv ∈ kvs, kv.1 ∉ acc.map Prod.fst) → (kvs.map Prod.fst).Nodup →
      kvs.foldl (fun a kv => setAttr a kv.1 kv.2) acc = acc ++ kvs := by
  induction kvs with
  | nil => intro acc _ _; simp
  | cons kv rest ih =>
    intro acc hdisj hnd
    rw [List.map_cons, List.nodup_cons] at hnd
    rw [List.foldl_cons]
    have h1 : setAttr acc kv.1 kv.2 = acc ++ [(kv.1, kv.2)] := by
      rw [setAttr, if_neg (hdisj kv (List.mem_cons_self _ _))]
    have h2 : ∀ kv' ∈ rest, kv'.1 ∉ (acc ++ [(kv.1, kv.2)]).map Prod.fst := by
      intro kv' hkv'
      rw [List.map_append]
      intro hmem
      rcases List.mem_append.mp hmem with h | h
      · exact hdisj kv' (List.mem_cons_of_mem _ hkv') h
      · have hh : kv'.1 = kv.1 := by simpa using h
        refine hnd.1 ?_
        rw [← hh]
        exact List.mem_map_of_mem Prod.fst hkv'
    rw [h1, ih _ h2 hnd.2]
    simp

theorem mkFields_eq_self {kvs : List (PyKey × Node)}
    (hnd : (kvs.map Prod.fst).Nodup) : mkFields kvs = kvs :=
  (mkFields_general kvs [] (by simp) hnd).trans (List.nil_append _)

theorem assocFind_buildKVs {es : List (PyKey × JSON)} {e : PyKey × JSON}
    (he : e ∈ es) (hnd : (objKeys es).Nodup) :
    assocFind (buildKVs es) (get_key_name e.1) = some (buildAttr e.2) := by
  induction es with
  | nil => cases he
  | cons e0 rest ih =>
    rcases e0 with ⟨k0, v0⟩
    have hnd' : get_key_name k0 ∉ objKeys rest ∧ (objKeys rest).Nodup := by
      rw [show objKeys ((k0, v0) :: rest) = get_key_name k0 :: objKeys rest from rfl,
        List.nodup_cons] at hnd
      exact hnd
    show assocFind ((get_key_name k0, buildAttr v0) :: buildKVs rest) (get_key_name e.1) = _
    rw [assocFind_cons]
    rcases List.mem_cons.mp he with rfl | he'
    · rw [if_pos rfl]
    · have hne : ¬ ((get_key_name k0, buildAttr v0).1 = get_key_name e.1) := by
        intro hcc
        apply hnd'.1
        show get_key_name k0 ∈ objKeys rest
        have hcc' : get_key_name k0 = get_key_name e.1 := hcc
        rw [hcc']
        exact List.mem_map_of_mem _ he'
      rw [if_neg hne]
      exact ih he' hnd'.2

theorem buildAttr_scalar {v : JSON} (hv : isScalar v = true) :
    buildAttr v = Node.raw v := by
  cases v with
  | null => rfl
  | bool b => rfl
  | num n => rfl
  | str s => rfl
  | arr ms => exact Bool.noConfusion hv
  | obj es => exact Bool.noConfusion hv

theorem all_noBanned_map (l : List Char) :
    ((l.map (fun c => if c = ' ' then '_' else c)).map
      (fun c => if isPunct c then '_' else c)).all (fun c => !(c = ' ' || isPunct c)) = true := by
  induction l with
  | nil => rfl
  | cons c0 rest ih =>
    simp only [List.map_cons, List.all_cons, ih, Bool.and_true]
    by_cases hsp : c0 = ' '
    · rw [if_pos hsp]
      decide
    · rw [if_neg hsp]
      by_cases hp : isPunct c0
      · rw [if_pos hp]
        decide
      · rw [if_neg hp]
        simp [hsp, hp]

theorem noBanned_norm (s : String) : noBanned (sub_punct (sub_space s)) = true :=
  all_noBanned_map s.data

/-- Claim C6 (counterexample): the claim as stated is false — the source
normalization leaves string keys that are not valid identifiers untouched,
so the raw key `"+"` reaches the field directory of the resulting node
unchanged and is not a valid identifier. -/
theorem claim_C6_counterexample :
    ¬ (∀ nm ∈ keysOf (APIResponseObject [(PyKey.str "+", JSON.null)]),
        specValidIdent nm = true) := by
  decide

/-- Claim C6 (amended): the source normalization only substitutes spaces and
the punctuation set, so identifier validity does not hold in general; what
holds is that for a JSON value all of whose reachable object keys are
strings, every field name of every reachable mapping node is a string
containing no space and none of the substituted characters. -/
theorem claim_C6 (es0 : List (PyKey × JSON))
    (hstr : ∀ es', ReachObj es0 es' → ∀ e ∈ es', ∃ s, e.1 = PyKey.str s) :
    ∀ es', ReachObj es0 es' →
      ∀ nm ∈ keysOf (buildAttr (JSON.obj es')),
        ∃ s, nm = PyKey.str s ∧ noBanned s = true := by
  intro es' hre nm hnm
  have hk : keysOf (buildAttr (JSON.obj es')) = objKeys es' := by
    show keysFold (buildKVs es') = objKeys es'
    rw [keysFold_eq_map, buildKVs_map_fst]
  rw [hk] at hnm
  obtain ⟨e, he, rfl⟩ := List.mem_map.mp hnm
  obtain ⟨s0, hs0⟩ := hstr es' hre e he
  rw [hs0]
  exact ⟨sub_punct (sub_space s0), rfl, noBanned_norm s0⟩

/-- Witness for claim C6 at a one-entry object whose key is the string
`"Total Assets"`. -/
theorem claim_C6_witness :
    (∀ es', ReachObj [(PyKey.str "Total Assets", JSON.num 1)] es' →
        ∀ e ∈ es', ∃ s, e.1 = PyKey.str s) ∧
    (∀ es', ReachObj [(PyKey.str "Total Assets", JSON.num 1)] es' →
        ∀ nm ∈ keysOf (buildAttr (JSON.obj es')),
          ∃ s, nm = PyKey.str s ∧ noBanned s = true) := by
  have honly : ∀ es', ReachObj [(PyKey.str "Total Assets", JSON.num 1)] es' →
      es' = [(PyKey.str "Total Assets", JSON.num 1)] := by
    intro es' h
    induction h with
    | refl => rfl
    | intoObj h hm ih =>
      rw [ih] at hm
      simp at hm
    | intoArr h hm hmem ih =>
      rw [ih] at hm
      simp at hm
  have hstr : ∀ es', ReachObj [(PyKey.str "Total Assets", JSON.num 1)] es' →
      ∀ e ∈ es', ∃ s, e.1 = PyKey.str s := by
    intro es' h e he
    rw [honly es' h, List.mem_singleton] at he
    subst he
    exact ⟨"Total Assets", rfl⟩
  exact ⟨hstr, claim_C6 _ hstr⟩

/-- Claim C8: for a JSON value with no key collisions after normalization at
any reachable level, every reachable mapping node's field directory equals
the normalized input keys of its level in original insertion order, and each
scalar entry value is stored unchanged under its normalized key. -/
theorem claim_C8 (es0 : List (PyKey × JSON))
    (hnc : ∀ es', ReachObj es0 es' → (objKeys es').Nodup) :
    ∀ es', ReachObj es0 es' →
      keysOf (buildAttr (JSON.obj es')) = objKeys es' ∧
      ∀ e ∈ es', isScalar e.2 = true →
        nodeGetattr (buildAttr (JSON.obj es')) (get_key_name e.1) =
          some (Node.raw e.2) := by
  intro es' hre
  have hnd := hnc es' hre
  constructor
  · show keysFold (buildKVs es') = objKeys es'
    rw [keysFold_eq_map, buildKVs_map_fst]
  · intro e he hsc
    show assocFind (mkFields (buildKVs es')) (get_key_name e.1) = some (Node.raw e.2)
    rw [mkFields_eq_self (by rw [buildKVs_map_fst]; exact hnd)]
    rw [assocFind_buildKVs he hnd, buildAttr_scalar hsc]

/-- Witness for claim C8 at a two-level object: a spaced string key holding
a nested object with a numeric key. -/
theorem claim_C8_witness :
    (∀ es', ReachObj [(PyKey.str "a b", JSON.obj [(PyKey.num 2019, JSON.null)])] es' →
        (objKeys es').Nodup) ∧
    (∀ es', ReachObj [(PyKey.str "a b", JSON.obj [(PyKey.num 2019, JSON.null)])] es' →
        keysOf (buildAttr (JSON.obj es')) = objKeys es' ∧
        ∀ e ∈ es', isScalar e.2 = true →
          nodeGetattr (buildAttr (JSON.obj es')) (get_key_name e.1) =
            some (Node.raw e.2)) := by
  have honly : ∀ es',
      ReachObj [(PyKey.str "a b", JSON.obj [(PyKey.num 2019, JSON.null)])] es' →
      es' = [(PyKey.str "a b", JSON.obj [(PyKey.num 2019, JSON.null)])] ∨
        es' = [(PyKey.num 2019, JSON.null)] := by
    intro es' h
    induction h with
    | refl => exact Or.inl rfl
    | intoObj h hm ih =>
      rcases ih with h1 | h1 <;> rw [h1] at hm
      · simp at hm
        exact Or.inr hm.2
      · simp at hm
    | intoArr h hm hmem ih =>
      rcases ih with h1 | h1 <;> rw [h1] at hm <;> simp at hm
  have hnc : ∀ es',
      ReachObj [(PyKey.str "a b", JSON.obj [(PyKey.num 2019, JSON.null)])] es' →
      (objKeys es').Nodup := by
    intro es' h
    rcases honly es' h with rfl | rfl <;> decide
  exact ⟨hnc, claim_C8 _ hnc⟩

/-! ## AggregationReshaper lemmas -/

theorem setAttr_ensure {α : Type _} (m : List (String × α)) (k : String) (d v : α) :
    setAttr (ensure m k d) k v = setAttr m k v := by
  rw [ensure]
  split
  · rfl
  · rename_i hmem
    have hm : ∀ p ∈ m, (fun p : String × α => if p.1 = k then (p.1, v) else p) p = id p := by
      intro p hp
      have hne : ¬ (p.1 = k) := by
        intro hh
        refine hmem ?_
        rw [← hh]
        exact List.mem_map_of_mem Prod.fst hp
      simp [hne]
    have hin : k ∈ (m ++ [(k, d)]).map Prod.fst := by simp
    rw [setAttr, if_pos hin, List.map_append, List.map_congr_left hm, List.map_id]
    rw [setAttr, if_neg hmem]
    congr 1
    simp

theorem mem_setAttr_cases {κ α : Type _} [DecidableEq κ] {m : List (κ × α)} {k : κ} {v : α}
    {p : κ × α} (hp : p ∈ setAttr m k v) : p ∈ m ∨ p = (k, v) := by
  rw [setAttr] at hp
  split at hp
  · obtain ⟨q, hq, heq⟩ := List.mem_map.mp hp
    by_cases hqk : q.1 = k
    · rw [if_pos hqk] at heq
      right
      rw [← heq, hqk]
    · rw [if_neg hqk] at heq
      exact Or.inl (heq ▸ hq)
  · rcases List.mem_append.mp hp with h | h
    · exact Or.inl h
    · exact Or.inr (List.mem_singleton.mp h)

theorem insertAgg_some_period {D : Type} (parseDate : String → D)
    (items : List (String × List (String × List (String × PVal D))))
    (r : AggRecord) (hinv : AggBranchInv items)
    (hper : sub_punct (sub_space r.measure) = "period") :
    ∃ items', insertAgg parseDate items r = some items' ∧ AggBranchInv items' ∧
      (∃ l', aggLookup items' r = some l' ∧ outRec parseDate r ∈ l') ∧
      (∀ r' : AggRecord, ∀ l00, aggLookup items r' = some l00 →
        outRec parseDate r' ∈ l00 →
        ∃ l', aggLookup items' r' = some l' ∧ outRec parseDate r' ∈ l') := by
  obtain ⟨M, hM, hMmem⟩ : ∃ M, (assocFind items r.figure).getD [] = M ∧
      (M = [] ∨ (r.figure, M) ∈ items) := by
    cases h : assocFind items r.figure with
    | none => exact ⟨[], rfl, Or.inl rfl⟩
    | some mm => exact ⟨mm, rfl, Or.inr (mem_of_assocFind_some h)⟩
  obtain ⟨T, hT, hTmem⟩ : ∃ T, (assocFind M "period").getD [] = T ∧
      (T = [] ∨ ("period", T) ∈ M) := by
    cases h : assocFind M "period" with
    | none => exact ⟨[], rfl, Or.inl rfl⟩
    | some tm => exact ⟨tm, rfl, Or.inr (mem_of_assocFind_some h)⟩
  obtain ⟨P, hP⟩ : ∃ P, (assocFind T r.type).getD (PVal.dictV []) = PVal.dictV P := by
    cases h : assocFind T r.type with
    | none => exact ⟨[], rfl⟩
    | some pv =>
      have hpv := mem_of_assocFind_some h
      rcases hTmem with rfl | hTe
      · exact absurd hpv (List.not_mem_nil _)
      · rcases hMmem with rfl | hMe
        · exact absurd hTe (List.not_mem_nil _)
        · have hsh := hinv r.figure M hMe "period" T hTe r.type pv hpv
          rw [if_pos rfl] at hsh
          obtain ⟨pm, rfl⟩ := hsh
          exact ⟨pm, rfl⟩
  simp only [insertAgg]
  rw [hper, if_pos rfl, hM, hT, hP]
  refine ⟨_, rfl, ?_, ?_, ?_⟩
  · -- the branch-shape invariant is preserved
    simp only [setAttr_ensure]
    intro f mmv hf ms tmv hms ty pv hty
    rcases mem_setAttr_cases hf with hf' | hf'
    · exact hinv f mmv hf' ms tmv hms ty pv hty
    · rw [Prod.mk.injEq] at hf'
      obtain ⟨rfl, rfl⟩ := hf'
      rcases mem_setAttr_cases hms with hms' | hms'
      · rcases hMmem with rfl | hMe
        · exact absurd hms' (List.not_mem_nil _)
        · exact hinv r.figure M hMe ms tmv hms' ty pv hty
      · rw [Prod.mk.injEq] at hms'
        obtain ⟨rfl, rfl⟩ := hms'
        rcases mem_setAttr_cases hty with hty' | hty'
        · rcases hTmem with rfl | hTe
          · exact absurd hty' (List.not_mem_nil _)
          · rcases hMmem with rfl | hMe
            · exact absurd hTe (List.not_mem_nil _)
            · exact hinv r.figure M hMe "period" T hTe ty pv hty'
        · rw [Prod.mk.injEq] at hty'
          obtain ⟨rfl, rfl⟩ := hty'
          rw [if_pos rfl]
          exact ⟨_, rfl⟩
  · -- the new record is found under figure, "period", type, period
    refine ⟨(assocFind P r.period).getD [] ++ [outRec parseDate r], ?_, ?_⟩
    · simp only [setAttr_ensure, aggLookup, hper, assocFind_setAttr_self,
        Option.some_bind, eq_self_iff_true, if_true]
    · exact List.mem_append_right _ (List.mem_singleton.mpr rfl)
  · -- every previously stored record is still found on its path
    intro r' l00 hlk hmem0
    simp only [aggLookup, Option.bind_eq_some] at hlk
    obtain ⟨mm0, h1, tm0, h2, pv0, h3, h4⟩ := hlk
    simp only [setAttr_ensure]
    by_cases hf : r'.figure = r.figure
    · have hMv : mm0 = M := by
        rw [hf] at h1
        rw [h1] at hM
        exact hM
      subst hMv
      by_cases hms : sub_punct (sub_space r'.measure) = "period"
      · have hTv : tm0 = T := by
          rw [hms] at h2
          rw [h2] at hT
          exact hT
        subst hTv
        by_cases hty : r'.type = r.type
        · have hpv : pv0 = PVal.dictV P := by
            rw [hty] at h3
            rw [h3] at hP
            exact hP
          subst hpv
          have h4' : assocFind P r'.period = some l00 := by
            simp only [hms, eq_self_iff_true, if_true] at h4
            exact h4
          by_cases hpp : r'.period = r.period
          · have hfound : assocFind P r.period = some l00 := by
              rw [← hpp]
              exact h4'
            refine ⟨l00 ++ [outRec parseDate r], ?_, List.mem_append_left _ hmem0⟩
            simp only [aggLookup, hf, hms, hpp, hty, assocFind_setAttr_self,
              Option.some_bind, eq_self_iff_true, if_true, hfound, Option.getD_some]
          · refine ⟨l00, ?_, hmem0⟩
            simp only [aggLookup, hf, hms, hty, assocFind_setAttr_self,
              Option.some_bind, eq_self_iff_true, if_true]
            rw [assocFind_setAttr_ne _ _ _ hpp]
            exact h4'
        · refine ⟨l00, ?_, hmem0⟩
          simp only [aggLookup, hf, hms, assocFind_setAttr_self,
            Option.some_bind, eq_self_iff_true, if_true]
          rw [assocFind_setAttr_ne _ _ _ hty, h3]
          simp only [Option.some_bind]
          simp only [hms, eq_self_iff_true, if_true] at h4
          exact h4
      · refine ⟨l00, ?_, hmem0⟩
        simp only [aggLookup, hf, assocFind_setAttr_self, Option.some_bind]
        rw [assocFind_setAttr_ne _ _ _ hms, h2]
        simp only [Option.some_bind]
        rw [h3]
        simp only [Option.some_bind]
        exact h4
    · refine ⟨l00, ?_, hmem0⟩
      simp only [aggLookup, Option.bind_eq_some]
      refine ⟨mm0, ?_, tm0, h2, pv0, h3, h4⟩
      rw [assocFind_setAttr_ne _ _ _ hf]
      exact h1

theorem insertAgg_some_other {D : Type} (parseDate : String → D)
    (items : List (String × List (String × List (String × PVal D))))
    (r : AggRecord) (hinv : AggBranchInv items)
    (hper : ¬ (sub_punct (sub_space r.measure) = "period")) :
    ∃ items', insertAgg parseDate items r = some items' ∧ AggBranchInv items' ∧
      (∃ l', aggLookup items' r = some l' ∧ outRec parseDate r ∈ l') ∧
      (∀ r' : AggRecord, ∀ l00, aggLookup items r' = some l00 →
        outRec parseDate r' ∈ l00 →
        ∃ l', aggLookup items' r' = some l' ∧ outRec parseDate r' ∈ l') := by
  obtain ⟨M, hM, hMmem⟩ : ∃ M, (assocFind items r.figure).getD [] = M ∧
      (M = [] ∨ (r.figure, M) ∈ items) := by
    cases h : assocFind items r.figure with
    | none => exact ⟨[], rfl, Or.inl rfl⟩
    | some mm => exact ⟨mm, rfl, Or.inr (mem_of_assocFind_some h)⟩
  obtain ⟨T, hT, hTmem⟩ : ∃ T,
      (assocFind M (sub_punct (sub_space r.measure))).getD [] = T ∧
      (T = [] ∨ (sub_punct (sub_space r.measure), T) ∈ M) := by
    cases h : assocFind M (sub_punct (sub_space r.measure)) with
    | none => exact ⟨[], rfl, Or.inl rfl⟩
    | some tm => exact ⟨tm, rfl, Or.inr (mem_of_assocFind_some h)⟩
  obtain ⟨L0, hL⟩ : ∃ L0, (assocFind T r.type).getD (PVal.listV []) = PVal.listV L0 := by
    cases h : assocFind T r.type with
    | none => exact ⟨[], rfl⟩
    | some pv =>
      have hpv := mem_of_assocFind_some h
      rcases hTmem with rfl | hTe
      · exact absurd hpv (List.not_mem_nil _)
      · rcases hMmem with rfl | hMe
        · exact absurd hTe (List.not_mem_nil _)
        · have hsh := hinv r.figure M hMe (sub_punct (sub_space r.measure)) T hTe
            r.type pv hpv
          rw [if_neg hper] at hsh
          obtain ⟨lv, rfl⟩ := hsh
          exact ⟨lv, rfl⟩
  simp only [insertAgg]
  rw [if_neg hper, hM, hT, hL]
  refine ⟨_, rfl, ?_, ?_, ?_⟩
  · -- the branch-shape invariant is preserved
    simp only [setAttr_ensure]
    intro f mmv hf ms tmv hms ty pv hty
    rcases mem_setAttr_cases hf with hf' | hf'
    · exact hinv f mmv hf' ms tmv hms ty pv hty
    · rw [Prod.mk.injEq] at hf'
      obtain ⟨rfl, rfl⟩ := hf'
      rcases mem_setAttr_cases hms with hms' | hms'
      · rcases hMmem with rfl | hMe
        · exact absurd hms' (List.not_mem_nil _)
        · exact hinv r.figure M hMe ms tmv hms' ty pv hty
      · rw [Prod.mk.injEq] at hms'
        obtain ⟨rfl, rfl⟩ := hms'
        rcases mem_setAttr_cases hty with hty' | hty'
        · rcases hTmem with rfl | hTe
          · exact absurd hty' (List.not_mem_nil _)
          · rcases hMmem with rfl | hMe
            · exact absurd hTe (List.not_mem_nil _)
            · exact hinv r.figure M hMe (sub_punct (sub_space r.measure)) T hTe ty pv hty'
        · rw [Prod.mk.injEq] at hty'
          obtain ⟨rfl, rfl⟩ := hty'
          rw [if_neg hper]
          exact ⟨_, rfl⟩
  · -- the new record is found under figure, measure, type
    refine ⟨L0 ++ [outRec parseDate r], ?_, ?_⟩
    · simp only [setAttr_ensure, aggLookup, assocFind_setAttr_self, Option.some_bind]
      rw [if_neg hper]
    · exact List.mem_append_right _ (List.mem_singleton.mpr rfl)
  · -- every previously stored record is still found on its path
    intro r' l00 hlk hmem0
    simp only [aggLookup, Option.bind_eq_some] at hlk
    obtain ⟨mm0, h1, tm0, h2, pv0, h3, h4⟩ := hlk
    simp only [setAttr_ensure]
    by_cases hf : r'.figure = r.figure
    · have hMv : mm0 = M := by
        rw [hf] at h1
        rw [h1] at hM
        exact hM
      subst hMv
      by_cases hms : sub_punct (sub_space r'.measure) = sub_punct (sub_space r.measure)
      · have hTv : tm0 = T := by
          rw [hms] at h2
          rw [h2] at hT
          exact hT
        subst hTv
        by_cases hty : r'.type = r.type
        · have hpv : pv0 = PVal.listV L0 := by
            rw [hty] at h3
            rw [h3] at hL
            exact hL
          subst hpv
          simp only [hms] at h4
          rw [if_neg hper] at h4
          have hl00 : L0 = l00 := Option.some.inj h4
          subst hl00
          refine ⟨L0 ++ [outRec parseDate r], ?_, List.mem_append_left _ hmem0⟩
          simp only [aggLookup, hf, hms, hty, assocFind_setAttr_self, Option.some_bind]
          rw [if_neg hper]
        · refine ⟨l00, ?_, hmem0⟩
          simp only [aggLookup, hf, hms, assocFind_setAttr_self, Option.some_bind]
          rw [assocFind_setAttr_ne _ _ _ hty, h3]
          simp only [Option.some_bind]
          simp only [hms] at h4
          exact h4
      · refine ⟨l00, ?_, hmem0⟩
        simp only [aggLookup, hf, assocFind_setAttr_self, Option.some_bind]
        rw [assocFind_setAttr_ne _ _ _ hms, h2]
        simp only [Option.some_bind]
        rw [h3]
        simp only [Option.some_bind]
        exact h4
    · refine ⟨l00, ?_, hmem0⟩
      simp only [aggLookup, Option.bind_eq_some]
      refine ⟨mm0, ?_, tm0, h2, pv0, h3, h4⟩
      rw [assocFind_setAttr_ne _ _ _ hf]
      exact h1

theorem insertAgg_some {D : Type} (parseDate : String → D)
    (items : List (String × List (String × List (String × PVal D))))
    (r : AggRecord) (hinv : AggBranchInv items) :
    ∃ items', insertAgg parseDate items r = some items' ∧ AggBranchInv items' ∧
      (∃ l', aggLookup items' r = some l' ∧ outRec parseDate r ∈ l') ∧
      (∀ r' : AggRecord, ∀ l00, aggLookup items r' = some l00 →
        outRec parseDate r' ∈ l00 →
        ∃ l', aggLookup items' r' = some l' ∧ outRec parseDate r' ∈ l') := by
  by_cases hper : sub_punct (sub_space r.measure) = "period"
  · exact insertAgg_some_period parseDate items r hinv hper
  · exact insertAgg_some_other parseDate items r hinv hper

theorem agg_fold {D : Type} (parseDate : String → D) (resp : List AggRecord) :
    ∀ items, AggBranchInv items →
      ∃ out, resp.foldlM (insertAgg parseDate) items = some out ∧ AggBranchInv out ∧
        (∀ r ∈ resp, ∃ l, aggLookup out r = some l ∧ outRec parseDate r ∈ l) ∧
        (∀ r' : AggRecord, ∀ l00, aggLookup items r' = some l00 →
          outRec parseDate r' ∈ l00 →
          ∃ l', aggLookup out r' = some l' ∧ outRec parseDate r' ∈ l') := by
  induction resp with
  | nil =>
    intro items hinv
    exact ⟨items, rfl, hinv, fun r hr => absurd hr (List.not_mem_nil _),
      fun r' l00 h hm => ⟨l00, h, hm⟩⟩
  | cons r rest ih =>
    intro items hinv
    obtain ⟨items1, hstep, hinv1, ⟨lr, hlr, hmr⟩, hpres⟩ :=
      insertAgg_some parseDate items r hinv
    obtain ⟨out, hfold, hinvO, hall, hpres2⟩ := ih items1 hinv1
    refine ⟨out, ?_, hinvO, ?_, ?_⟩
    · rw [List.foldlM_cons, hstep]
      exact hfold
    · intro rr hrr
      rcases List.mem_cons.mp hrr with rfl | hrr'
      · exact hpres2 rr lr hlr hmr
      · exact hall rr hrr'
    · intro r' l00 h hm
      obtain ⟨l1, h1, hm1⟩ := hpres r' l00 h hm
      exact hpres2 r' l1 h1 hm1

/-- Claim C9: the aggregation reshaping loop accepts every input (the
branch-shape fault is unreachable), and each input record is stored as
{value, parsed date, integer fyear or null when fyear is falsy} on the
lookup path figure → measure → type → period when the normalized measure is
the literal "period", and figure → measure → type otherwise. -/
theorem claim_C9 {D : Type} (parseDate : String → D) (resp : List AggRecord) :
    ∃ out, get_aggregated_shares_outstanding parseDate resp = some out ∧
      ∀ r ∈ resp, ∃ l, aggLookup out r = some l ∧ outRec parseDate r ∈ l := by
  obtain ⟨out, h1, _, h3, _⟩ := agg_fold parseDate resp []
    (fun f mmv hf => absurd hf (List.not_mem_nil _))
  exact ⟨out, h1, h3⟩

/-- Witness for claim C9 at the specification's scenario record, with dates
parsed as raw strings. -/
theorem claim_C9_witness :
    ∃ out, get_aggregated_shares_outstanding (fun s => s) [exAggRecord] = some out ∧
      ∀ r ∈ [exAggRecord], ∃ l, aggLookup out r = some l ∧
        outRec (fun s => s) r ∈ l :=
  claim_C9 (fun s => s) [exAggRecord]

end Simfinweb
